import Mathlib

/-!
# The `subdir` stacking module (`lib/modules/subdir.c`)

A shallow embedding of the path translation (`subdir_addpath`), the symlink
relativisation (`count_components`, `strip_common`, `transform_symlink`), the
forwarding operations of the module and its constructor `subdir_new`, followed by
the properties proved about them.

## Memory model

A `char *` is the list of bytes found from the pointer onward; every byte past the
end of the list reads as NUL.  Hence `*p` is `deref p`, `p++` is `List.tail`, and the
C string a pointer denotes is `cstr p`, the bytes before the first NUL.  A pointer
obtained from `buf` by increments is a suffix `l` of `buf`, and the pointer
difference `l - buf` is `buf.length - l.length`.  Writes replace the bytes of a
range and leave all others in place.

The `unsigned` sum in `subdir_addpath` wraps modulo `2 ^ 32` as in C.  The `int`,
`long` and `size_t` quantities of `count_components` and `transform_symlink` are
natural numbers: each is bounded by the length of a string held in memory.

The loops of `count_components` and `strip_common` run on fuel, the length of what is
left to read plus one; `count_components_loop_eq` and `strip_common_loop_terminates`
show that they exit before the fuel runs out, and `strip_common_unfold` that
`strip_common` satisfies the equation of its loop.

The inner provider is a record of state-passing operations, one per `fuse_fs_*`
call the module makes; the result of a forwarding operation is the status together
with the state (and buffer) it leaves, so that "the inner operation is not invoked"
reads "the state is the one the call started from".

The constructor `subdir_new` takes the call of the option parser as a parameter; the
parser of the library is not part of the source file, and `fuse_opt_parse` models it
on the table `subdir_opts` for the properties that depend on the options given.
-/

namespace Subdir

/-! ## Bytes, strings and buffers -/

/-- The NUL byte that terminates a C string. -/
def NUL : Char := Char.ofNat 0

/-- The C expression `*p`: the first byte, NUL past the end of what is stored. -/
def deref (p : List Char) : Char := p.headD NUL

/-- The C library function `strlen`: the number of bytes before the first NUL. -/
def strlen : List Char → Nat
  | [] => 0
  | c :: p => if c = NUL then 0 else strlen p + 1

/-- The C string a pointer denotes: the bytes before the first NUL. -/
def cstr : List Char → List Char
  | [] => []
  | c :: p => if c = NUL then [] else c :: cstr p

/-- The `n` bytes found at `p`. -/
def memread : List Char → Nat → List Char
  | _, 0 => []
  | p, n + 1 => deref p :: memread p.tail n

/-- Store `bytes` at offset `off` of `buf`; all other bytes stay as they are.  A store
that starts past the end of the list first fills the gap with the NUL bytes that are
read there. -/
def memwrite (buf : List Char) (off : Nat) (bytes : List Char) : List Char :=
  buf.take off ++ List.replicate (off - buf.length) NUL ++ bytes
    ++ buf.drop (off + bytes.length)

/-- The C library call `strcpy(dst + off, src)`: the string at `src` and its terminator. -/
def strcpy (dst : List Char) (off : Nat) (src : List Char) : List Char :=
  memwrite dst off (cstr src ++ [NUL])

/-- The C library call `memmove(dst + off, src, n)`; the source bytes are read before
any byte is stored, so overlapping ranges are handled. -/
def memmove (dst : List Char) (off : Nat) (src : List Char) (n : Nat) : List Char :=
  memwrite dst off (memread src n)

/-- The C library call `memcpy(dst + off, src, n)`. -/
def memcpy (dst : List Char) (off : Nat) (src : List Char) (n : Nat) : List Char :=
  memwrite dst off (memread src n)

/-- The value of `ENOMEM` in `errno.h`. -/
def ENOMEM : Int := 12

/-! ## The inner filesystem and the module state -/

/-- The operations of the module that take one path and forward to the inner call of
the same name (`fs_getattr` stands for `subdir_getattr` and `fuse_fs_getattr`). -/
inductive path_op where
  | fs_getattr
  | fs_fgetattr
  | fs_access
  | fs_opendir
  | fs_readdir
  | fs_releasedir
  | fs_mknod
  | fs_mkdir
  | fs_unlink
  | fs_rmdir
  | fs_setattr_x
  | fs_fsetattr_x
  | fs_chflags
  | fs_getxtimes
  | fs_setbkuptime
  | fs_setchgtime
  | fs_setcrtime
  | fs_chmod
  | fs_chown
  | fs_truncate
  | fs_ftruncate
  | fs_utimens
  | fs_create
  | fs_open
  | fs_read
  | fs_write
  | fs_statfs
  | fs_flush
  | fs_release
  | fs_fsync
  | fs_fsyncdir
  | fs_setxattr
  | fs_getxattr
  | fs_listxattr
  | fs_removexattr
  | fs_lock
  | fs_bmap

/-- The operations of the next filesystem (the `fuse_fs_*` calls on `d->next`).  Each
takes the state of the inner provider and returns its status together with the new
state; `readlink` also returns the buffer as it leaves it.  `call op` is the inner
call of a one-path operation: `Args op` is the type of its arguments after the path,
and what the call stores through them is part of the state. -/
structure fuse_fs (σ : Type) where
  rename : σ → List Char → List Char → Int × σ
  link : σ → List Char → List Char → Int × σ
  readlink : σ → List Char → List Char → Nat → Int × List Char × σ
  symlink : σ → List Char → List Char → Int × σ
  Args : path_op → Type
  call : (op : path_op) → σ → List Char → Args op → Int × σ

/-- The C declaration `struct subdir`. -/
structure subdir (σ : Type) where
  base : List Char
  baselen : Nat
  rellinks : Int
  next : fuse_fs σ

/-! ## `subdir_addpath` -/

/-- The function `subdir_addpath`.  `malloc n` is the outcome of the allocation: `none`
for a null pointer, otherwise the fresh block with whatever bytes it holds. -/
def subdir_addpath {σ : Type} (malloc : Nat → Option (List Char)) (d : subdir σ)
    (path : List Char) : Option (List Char) :=
  let newlen := (d.baselen + strlen path) % 2 ^ 32
  match malloc ((newlen + 2) % 2 ^ 32) with
  | none => none
  | some newpath =>
    let path := if deref path = '/' then path.tail else path
    let newpath := strcpy newpath 0 d.base
    let newpath := strcpy newpath d.baselen path
    let newpath := if deref newpath = NUL then strcpy newpath 0 ['.'] else newpath
    some newpath

/-! ## `count_components` -/

/-- The loop `for (; *p == '/'; p++);`. -/
def skip_slashes : List Char → List Char
  | [] => []
  | c :: p => if c = '/' then skip_slashes p else c :: p

/-- The loop `for (; *p && *p != '/'; p++);`. -/
def skip_component : List Char → List Char
  | [] => []
  | c :: p => if c ≠ NUL ∧ c ≠ '/' then skip_component p else c :: p

/-- The counting loop of `count_components`, run for at most `fuel` iterations. -/
def count_components_loop : Nat → List Char → Nat → Option Nat
  | 0, _, _ => none
  | fuel + 1, p, ctr =>
    if deref p ≠ NUL then
      count_components_loop fuel (skip_slashes (skip_component p)) (ctr + 1)
    else some ctr

/-- The function `count_components`. -/
def count_components (p : List Char) : Nat :=
  (count_components_loop (p.length + 1) (skip_slashes p) 0).getD 0

/-! ## `strip_common` -/

/-- The loop `for (; *s == *t && *s && *s != '/'; s++, t++);`. -/
def match_segment : List Char → List Char → List Char × List Char
  | a :: s, b :: t =>
    if a = b ∧ a ≠ NUL ∧ a ≠ '/' then match_segment s t else (a :: s, b :: t)
  | s, t => (s, t)

/-- The continuation test of the `do ... while` loop of `strip_common`. -/
def strip_common_continue (s t : List Char) : Bool :=
  decide ((deref s = deref t ∧ deref s ≠ NUL) ∨ (deref s = NUL ∧ deref t = '/')
    ∨ (deref s = '/' ∧ deref t = NUL))

/-- The `do ... while` loop of `strip_common`, run for at most `fuel` iterations;
the result is the pair last stored in `*sp` and `*tp`. -/
def strip_common_loop : Nat → List Char → List Char → Option (List Char × List Char)
  | 0, _, _ => none
  | fuel + 1, s, t =>
    let sp := skip_slashes s
    let tp := skip_slashes t
    let st := match_segment sp tp
    if strip_common_continue st.1 st.2 then strip_common_loop fuel st.1 st.2
    else some (sp, tp)

/-- The function `strip_common`: the new values of `*sp` and `*tp`. -/
def strip_common (s t : List Char) : List Char × List Char :=
  (strip_common_loop (s.length + t.length + 1) s t).getD (skip_slashes s, skip_slashes t)

/-! ## `transform_symlink` -/

/-- The loop `for (s = buf, i = 0; i < dotdots; i++, s += 3) memcpy(s, "../", 3);`. -/
def write_dotdots (buf : List Char) (dotdots : Nat) : List Char :=
  (List.range dotdots).foldl (fun b i => memcpy b (i * 3) ['.', '.', '/'] 3) buf

/-- The function `transform_symlink`: the buffer as the call leaves it. -/
def transform_symlink {σ : Type} (d : subdir σ) (path : List Char) (buf : List Char)
    (size : Nat) : List Char :=
  if deref buf ≠ '/' ∨ deref d.base ≠ '/' then buf
  else
    let lp := strip_common buf path
    let l := lp.1
    let path := lp.2
    if buf.length - l.length < d.baselen then buf
    else
      let dotdots := count_components path
      if dotdots = 0 then buf
      else
        let dotdots := dotdots - 1
        let llen := strlen l
        if dotdots * 3 + llen + 2 > size then buf
        else
          let s := dotdots * 3
          let buf :=
            if llen ≠ 0 then memmove buf s l (llen + 1)
            else if dotdots = 0 then strcpy buf s ['.']
            else memwrite buf s [NUL]
          write_dotdots buf dotdots

/-! ## Forwarding operations -/

/-- The function `subdir_readlink`: status, buffer and inner state on return. -/
def subdir_readlink {σ : Type} (malloc : Nat → Option (List Char)) (d : subdir σ) (st : σ)
    (path : List Char) (buf : List Char) (size : Nat) : Int × List Char × σ :=
  match subdir_addpath malloc d path with
  | none => (-ENOMEM, buf, st)
  | some newpath =>
    let r := d.next.readlink st newpath buf size
    if r.1 = 0 ∧ d.rellinks ≠ 0 then (r.1, transform_symlink d newpath r.2.1 size, r.2.2)
    else r

/-- The function `subdir_rename`; `malloc1` and `malloc2` are the outcomes of the two
allocations, in call order. -/
def subdir_rename {σ : Type} (malloc1 malloc2 : Nat → Option (List Char)) (d : subdir σ)
    (st : σ) (src dst : List Char) : Int × σ :=
  match subdir_addpath malloc1 d src, subdir_addpath malloc2 d dst with
  | some newfrom, some newto => d.next.rename st newfrom newto
  | _, _ => (-ENOMEM, st)

/-- The function `subdir_link`; `malloc1` and `malloc2` are the outcomes of the two
allocations, in call order. -/
def subdir_link {σ : Type} (malloc1 malloc2 : Nat → Option (List Char)) (d : subdir σ)
    (st : σ) (src dst : List Char) : Int × σ :=
  match subdir_addpath malloc1 d src, subdir_addpath malloc2 d dst with
  | some newfrom, some newto => d.next.link st newfrom newto
  | _, _ => (-ENOMEM, st)

/-- The function `subdir_symlink`: the inner call gets `from` as given and the
translated link path. -/
def subdir_symlink {σ : Type} (malloc : Nat → Option (List Char)) (d : subdir σ) (st : σ)
    (src path : List Char) : Int × σ :=
  match subdir_addpath malloc d path with
  | none => (-ENOMEM, st)
  | some newpath => d.next.symlink st src newpath

/-- The function `subdir_getattr`; `args` stands for its arguments after the path. -/
def subdir_getattr {σ : Type} (malloc : Nat → Option (List Char)) (d : subdir σ) (st : σ)
    (path : List Char) (args : d.next.Args path_op.fs_getattr) : Int × σ :=
  match subdir_addpath malloc d path with
  | none => (-ENOMEM, st)
  | some newpath => d.next.call path_op.fs_getattr st newpath args

/-- The function `subdir_fgetattr`; `args` stands for its arguments after the path. -/
def subdir_fgetattr {σ : Type} (malloc : Nat → Option (List Char)) (d : subdir σ) (st : σ)
    (path : List Char) (args : d.next.Args path_op.fs_fgetattr) : Int × σ :=
  match subdir_addpath malloc d path with
  | none => (-ENOMEM, st)
  | some newpath => d.next.call path_op.fs_fgetattr st newpath args

/-- The function `subdir_access`; `args` stands for its arguments after the path. -/
def subdir_access {σ : Type} (malloc : Nat → Option (List Char)) (d : subdir σ) (st : σ)
    (path : List Char) (args : d.next.Args path_op.fs_access) : Int × σ :=
  match subdir_addpath malloc d path with
  | none => (-ENOMEM, st)
  | some newpath => d.next.call path_op.fs_access st newpath args

/-- The function `subdir_opendir`; `args` stands for its arguments after the path. -/
def subdir_opendir {σ : Type} (malloc : Nat → Option (List Char)) (d : subdir σ) (st : σ)
    (path : List Char) (args : d.next.Args path_op.fs_opendir) : Int × σ :=
  match subdir_addpath malloc d path with
  | none => (-ENOMEM, st)
  | some newpath => d.next.call path_op.fs_opendir st newpath args

/-- The function `subdir_readdir`; `args` stands for its arguments after the path. -/
def subdir_readdir {σ : Type} (malloc : Nat → Option (List Char)) (d : subdir σ) (st : σ)
    (path : List Char) (args : d.next.Args path_op.fs_readdir) : Int × σ :=
  match subdir_addpath malloc d path with
  | none => (-ENOMEM, st)
  | some newpath => d.next.call path_op.fs_readdir st newpath args

/-- The function `subdir_releasedir`; `args` stands for its arguments after the path. -/
def subdir_releasedir {σ : Type} (malloc : Nat → Option (List Char)) (d : subdir σ) (st : σ)
    (path : List Char) (args : d.next.Args path_op.fs_releasedir) : Int × σ :=
  match subdir_addpath malloc d path with
  | none => (-ENOMEM, st)
  | some newpath => d.next.call path_op.fs_releasedir st newpath args

/-- The function `subdir_mknod`; `args` stands for its arguments after the path. -/
def subdir_mknod {σ : Type} (malloc : Nat → Option (List Char)) (d : subdir σ) (st : σ)
    (path : List Char) (args : d.next.Args path_op.fs_mknod) : Int × σ :=
  match subdir_addpath malloc d path with
  | none => (-ENOMEM, st)
  | some newpath => d.next.call path_op.fs_mknod st newpath args

/-- The function `subdir_mkdir`; `args` stands for its arguments after the path. -/
def subdir_mkdir {σ : Type} (malloc : Nat → Option (List Char)) (d : subdir σ) (st : σ)
    (path : List Char) (args : d.next.Args path_op.fs_mkdir) : Int × σ :=
  match subdir_addpath malloc d path with
  | none => (-ENOMEM, st)
  | some newpath => d.next.call path_op.fs_mkdir st newpath args

/-- The function `subdir_unlink`; `args` stands for its arguments after the path. -/
def subdir_unlink {σ : Type} (malloc : Nat → Option (List Char)) (d : subdir σ) (st : σ)
    (path : List Char) (args : d.next.Args path_op.fs_unlink) : Int × σ :=
  match subdir_addpath malloc d path with
  | none => (-ENOMEM, st)
  | some newpath => d.next.call path_op.fs_unlink st newpath args

/-- The function `subdir_rmdir`; `args` stands for its arguments after the path. -/
def subdir_rmdir {σ : Type} (malloc : Nat → Option (List Char)) (d : subdir σ) (st : σ)
    (path : List Char) (args : d.next.Args path_op.fs_rmdir) : Int × σ :=
  match subdir_addpath malloc d path with
  | none => (-ENOMEM, st)
  | some newpath => d.next.call path_op.fs_rmdir st newpath args

/-- The function `subdir_setattr_x`; `args` stands for its arguments after the path. -/
def subdir_setattr_x {σ : Type} (malloc : Nat → Option (List Char)) (d : subdir σ) (st : σ)
    (path : List Char) (args : d.next.Args path_op.fs_setattr_x) : Int × σ :=
  match subdir_addpath malloc d path with
  | none => (-ENOMEM, st)
  | some newpath => d.next.call path_op.fs_setattr_x st newpath args

/-- The function `subdir_fsetattr_x`; `args` stands for its arguments after the path. -/
def subdir_fsetattr_x {σ : Type} (malloc : Nat → Option (List Char)) (d : subdir σ) (st : σ)
    (path : List Char) (args : d.next.Args path_op.fs_fsetattr_x) : Int × σ :=
  match subdir_addpath malloc d path with
  | none => (-ENOMEM, st)
  | some newpath => d.next.call path_op.fs_fsetattr_x st newpath args

/-- The function `subdir_chflags`; `args` stands for its arguments after the path. -/
def subdir_chflags {σ : Type} (malloc : Nat → Option (List Char)) (d : subdir σ) (st : σ)
    (path : List Char) (args : d.next.Args path_op.fs_chflags) : Int × σ :=
  match subdir_addpath malloc d path with
  | none => (-ENOMEM, st)
  | some newpath => d.next.call path_op.fs_chflags st newpath args

/-- The function `subdir_getxtimes`; `args` stands for its arguments after the path. -/
def subdir_getxtimes {σ : Type} (malloc : Nat → Option (List Char)) (d : subdir σ) (st : σ)
    (path : List Char) (args : d.next.Args path_op.fs_getxtimes) : Int × σ :=
  match subdir_addpath malloc d path with
  | none => (-ENOMEM, st)
  | some newpath => d.next.call path_op.fs_getxtimes st newpath args

/-- The function `subdir_setbkuptime`; `args` stands for its arguments after the path. -/
def subdir_setbkuptime {σ : Type} (malloc : Nat → Option (List Char)) (d : subdir σ) (st : σ)
    (path : List Char) (args : d.next.Args path_op.fs_setbkuptime) : Int × σ :=
  match subdir_addpath malloc d path with
  | none => (-ENOMEM, st)
  | some newpath => d.next.call path_op.fs_setbkuptime st newpath args

/-- The function `subdir_setchgtime`; `args` stands for its arguments after the path. -/
def subdir_setchgtime {σ : Type} (malloc : Nat → Option (List Char)) (d : subdir σ) (st : σ)
    (path : List Char) (args : d.next.Args path_op.fs_setchgtime) : Int × σ :=
  match subdir_addpath malloc d path with
  | none => (-ENOMEM, st)
  | some newpath => d.next.call path_op.fs_setchgtime st newpath args

/-- The function `subdir_setcrtime`; `args` stands for its arguments after the path. -/
def subdir_setcrtime {σ : Type} (malloc : Nat → Option (List Char)) (d : subdir σ) (st : σ)
    (path : List Char) (args : d.next.Args path_op.fs_setcrtime) : Int × σ :=
  match subdir_addpath malloc d path with
  | none => (-ENOMEM, st)
  | some newpath => d.next.call path_op.fs_setcrtime st newpath args

/-- The function `subdir_chmod`; `args` stands for its arguments after the path. -/
def subdir_chmod {σ : Type} (malloc : Nat → Option (List Char)) (d : subdir σ) (st : σ)
    (path : List Char) (args : d.next.Args path_op.fs_chmod) : Int × σ :=
  match subdir_addpath malloc d path with
  | none => (-ENOMEM, st)
  | some newpath => d.next.call path_op.fs_chmod st newpath args

/-- The function `subdir_chown`; `args` stands for its arguments after the path. -/
def subdir_chown {σ : Type} (malloc : Nat → Option (List Char)) (d : subdir σ) (st : σ)
    (path : List Char) (args : d.next.Args path_op.fs_chown) : Int × σ :=
  match subdir_addpath malloc d path with
  | none => (-ENOMEM, st)
  | some newpath => d.next.call path_op.fs_chown st newpath args

/-- The function `subdir_truncate`; `args` stands for its arguments after the path. -/
def subdir_truncate {σ : Type} (malloc : Nat → Option (List Char)) (d : subdir σ) (st : σ)
    (path : List Char) (args : d.next.Args path_op.fs_truncate) : Int × σ :=
  match subdir_addpath malloc d path with
  | none => (-ENOMEM, st)
  | some newpath => d.next.call path_op.fs_truncate st newpath args

/-- The function `subdir_ftruncate`; `args` stands for its arguments after the path. -/
def subdir_ftruncate {σ : Type} (malloc : Nat → Option (List Char)) (d : subdir σ) (st : σ)
    (path : List Char) (args : d.next.Args path_op.fs_ftruncate) : Int × σ :=
  match subdir_addpath malloc d path with
  | none => (-ENOMEM, st)
  | some newpath => d.next.call path_op.fs_ftruncate st newpath args

/-- The function `subdir_utimens`; `args` stands for its arguments after the path. -/
def subdir_utimens {σ : Type} (malloc : Nat → Option (List Char)) (d : subdir σ) (st : σ)
    (path : List Char) (args : d.next.Args path_op.fs_utimens) : Int × σ :=
  match subdir_addpath malloc d path with
  | none => (-ENOMEM, st)
  | some newpath => d.next.call path_op.fs_utimens st newpath args

/-- The function `subdir_create`; `args` stands for its arguments after the path. -/
def subdir_create {σ : Type} (malloc : Nat → Option (List Char)) (d : subdir σ) (st : σ)
    (path : List Char) (args : d.next.Args path_op.fs_create) : Int × σ :=
  match subdir_addpath malloc d path with
  | none => (-ENOMEM, st)
  | some newpath => d.next.call path_op.fs_create st newpath args

/-- The function `subdir_open`; `args` stands for its arguments after the path. -/
def subdir_open {σ : Type} (malloc : Nat → Option (List Char)) (d : subdir σ) (st : σ)
    (path : List Char) (args : d.next.Args path_op.fs_open) : Int × σ :=
  match subdir_addpath malloc d path with
  | none => (-ENOMEM, st)
  | some newpath => d.next.call path_op.fs_open st newpath args

/-- The function `subdir_read`; `args` stands for its arguments after the path. -/
def subdir_read {σ : Type} (malloc : Nat → Option (List Char)) (d : subdir σ) (st : σ)
    (path : List Char) (args : d.next.Args path_op.fs_read) : Int × σ :=
  match subdir_addpath malloc d path with
  | none => (-ENOMEM, st)
  | some newpath => d.next.call path_op.fs_read st newpath args

/-- The function `subdir_write`; `args` stands for its arguments after the path. -/
def subdir_write {σ : Type} (malloc : Nat → Option (List Char)) (d : subdir σ) (st : σ)
    (path : List Char) (args : d.next.Args path_op.fs_write) : Int × σ :=
  match subdir_addpath malloc d path with
  | none => (-ENOMEM, st)
  | some newpath => d.next.call path_op.fs_write st newpath args

/-- The function `subdir_statfs`; `args` stands for its arguments after the path. -/
def subdir_statfs {σ : Type} (malloc : Nat → Option (List Char)) (d : subdir σ) (st : σ)
    (path : List Char) (args : d.next.Args path_op.fs_statfs) : Int × σ :=
  match subdir_addpath malloc d path with
  | none => (-ENOMEM, st)
  | some newpath => d.next.call path_op.fs_statfs st newpath args

/-- The function `subdir_flush`; `args` stands for its arguments after the path. -/
def subdir_flush {σ : Type} (malloc : Nat → Option (List Char)) (d : subdir σ) (st : σ)
    (path : List Char) (args : d.next.Args path_op.fs_flush) : Int × σ :=
  match subdir_addpath malloc d path with
  | none => (-ENOMEM, st)
  | some newpath => d.next.call path_op.fs_flush st newpath args

/-- The function `subdir_release`; `args` stands for its arguments after the path. -/
def subdir_release {σ : Type} (malloc : Nat → Option (List Char)) (d : subdir σ) (st : σ)
    (path : List Char) (args : d.next.Args path_op.fs_release) : Int × σ :=
  match subdir_addpath malloc d path with
  | none => (-ENOMEM, st)
  | some newpath => d.next.call path_op.fs_release st newpath args

/-- The function `subdir_fsync`; `args` stands for its arguments after the path. -/
def subdir_fsync {σ : Type} (malloc : Nat → Option (List Char)) (d : subdir σ) (st : σ)
    (path : List Char) (args : d.next.Args path_op.fs_fsync) : Int × σ :=
  match subdir_addpath malloc d path with
  | none => (-ENOMEM, st)
  | some newpath => d.next.call path_op.fs_fsync st newpath args

/-- The function `subdir_fsyncdir`; `args` stands for its arguments after the path. -/
def subdir_fsyncdir {σ : Type} (malloc : Nat → Option (List Char)) (d : subdir σ) (st : σ)
    (path : List Char) (args : d.next.Args path_op.fs_fsyncdir) : Int × σ :=
  match subdir_addpath malloc d path with
  | none => (-ENOMEM, st)
  | some newpath => d.next.call path_op.fs_fsyncdir st newpath args

/-- The function `subdir_setxattr`; `args` stands for its arguments after the path. -/
def subdir_setxattr {σ : Type} (malloc : Nat → Option (List Char)) (d : subdir σ) (st : σ)
    (path : List Char) (args : d.next.Args path_op.fs_setxattr) : Int × σ :=
  match subdir_addpath malloc d path with
  | none => (-ENOMEM, st)
  | some newpath => d.next.call path_op.fs_setxattr st newpath args

/-- The function `subdir_getxattr`; `args` stands for its arguments after the path. -/
def subdir_getxattr {σ : Type} (malloc : Nat → Option (List Char)) (d : subdir σ) (st : σ)
    (path : List Char) (args : d.next.Args path_op.fs_getxattr) : Int × σ :=
  match subdir_addpath malloc d path with
  | none => (-ENOMEM, st)
  | some newpath => d.next.call path_op.fs_getxattr st newpath args

/-- The function `subdir_listxattr`; `args` stands for its arguments after the path. -/
def subdir_listxattr {σ : Type} (malloc : Nat → Option (List Char)) (d : subdir σ) (st : σ)
    (path : List Char) (args : d.next.Args path_op.fs_listxattr) : Int × σ :=
  match subdir_addpath malloc d path with
  | none => (-ENOMEM, st)
  | some newpath => d.next.call path_op.fs_listxattr st newpath args

/-- The function `subdir_removexattr`; `args` stands for its arguments after the path. -/
def subdir_removexattr {σ : Type} (malloc : Nat → Option (List Char)) (d : subdir σ) (st : σ)
    (path : List Char) (args : d.next.Args path_op.fs_removexattr) : Int × σ :=
  match subdir_addpath malloc d path with
  | none => (-ENOMEM, st)
  | some newpath => d.next.call path_op.fs_removexattr st newpath args

/-- The function `subdir_lock`; `args` stands for its arguments after the path. -/
def subdir_lock {σ : Type} (malloc : Nat → Option (List Char)) (d : subdir σ) (st : σ)
    (path : List Char) (args : d.next.Args path_op.fs_lock) : Int × σ :=
  match subdir_addpath malloc d path with
  | none => (-ENOMEM, st)
  | some newpath => d.next.call path_op.fs_lock st newpath args

/-- The function `subdir_bmap`; `args` stands for its arguments after the path. -/
def subdir_bmap {σ : Type} (malloc : Nat → Option (List Char)) (d : subdir σ) (st : σ)
    (path : List Char) (args : d.next.Args path_op.fs_bmap) : Int × σ :=
  match subdir_addpath malloc d path with
  | none => (-ENOMEM, st)
  | some newpath => d.next.call path_op.fs_bmap st newpath args

/-- The one-path entries of the table `subdir_oper`: the function of the module
registered for each operation. -/
def subdir_oper {σ : Type} (op : path_op) (malloc : Nat → Option (List Char))
    (d : subdir σ) (st : σ) (path : List Char) (args : d.next.Args op) : Int × σ :=
  match op, args with
  | path_op.fs_getattr, args => subdir_getattr malloc d st path args
  | path_op.fs_fgetattr, args => subdir_fgetattr malloc d st path args
  | path_op.fs_access, args => subdir_access malloc d st path args
  | path_op.fs_opendir, args => subdir_opendir malloc d st path args
  | path_op.fs_readdir, args => subdir_readdir malloc d st path args
  | path_op.fs_releasedir, args => subdir_releasedir malloc d st path args
  | path_op.fs_mknod, args => subdir_mknod malloc d st path args
  | path_op.fs_mkdir, args => subdir_mkdir malloc d st path args
  | path_op.fs_unlink, args => subdir_unlink malloc d st path args
  | path_op.fs_rmdir, args => subdir_rmdir malloc d st path args
  | path_op.fs_setattr_x, args => subdir_setattr_x malloc d st path args
  | path_op.fs_fsetattr_x, args => subdir_fsetattr_x malloc d st path args
  | path_op.fs_chflags, args => subdir_chflags malloc d st path args
  | path_op.fs_getxtimes, args => subdir_getxtimes malloc d st path args
  | path_op.fs_setbkuptime, args => subdir_setbkuptime malloc d st path args
  | path_op.fs_setchgtime, args => subdir_setchgtime malloc d st path args
  | path_op.fs_setcrtime, args => subdir_setcrtime malloc d st path args
  | path_op.fs_chmod, args => subdir_chmod malloc d st path args
  | path_op.fs_chown, args => subdir_chown malloc d st path args
  | path_op.fs_truncate, args => subdir_truncate malloc d st path args
  | path_op.fs_ftruncate, args => subdir_ftruncate malloc d st path args
  | path_op.fs_utimens, args => subdir_utimens malloc d st path args
  | path_op.fs_create, args => subdir_create malloc d st path args
  | path_op.fs_open, args => subdir_open malloc d st path args
  | path_op.fs_read, args => subdir_read malloc d st path args
  | path_op.fs_write, args => subdir_write malloc d st path args
  | path_op.fs_statfs, args => subdir_statfs malloc d st path args
  | path_op.fs_flush, args => subdir_flush malloc d st path args
  | path_op.fs_release, args => subdir_release malloc d st path args
  | path_op.fs_fsync, args => subdir_fsync malloc d st path args
  | path_op.fs_fsyncdir, args => subdir_fsyncdir malloc d st path args
  | path_op.fs_setxattr, args => subdir_setxattr malloc d st path args
  | path_op.fs_getxattr, args => subdir_getxattr malloc d st path args
  | path_op.fs_listxattr, args => subdir_listxattr malloc d st path args
  | path_op.fs_removexattr, args => subdir_removexattr malloc d st path args
  | path_op.fs_lock, args => subdir_lock malloc d st path args
  | path_op.fs_bmap, args => subdir_bmap malloc d st path args

/-! ## Options and `subdir_new` -/

/-- The C library call `strcat(dst, src)`: the string at `src` stored at the terminator
of `dst`. -/
def strcat (dst src : List Char) : List Char := strcpy dst (strlen dst) src

/-- The fields of `struct subdir` that option parsing fills through the table
`subdir_opts`; `base` is `none` while it is a null pointer. -/
structure subdir_options where
  base : Option (List Char)
  rellinks : Int

/-- What an entry of an option table does with an argument that matches its template:
call the option procedure with a key, store the parameter in `base`, or store a
value in `rellinks`. -/
inductive opt_action where
  | key (k : Int)
  | set_base
  | set_rellinks (v : Int)

/-- The table `subdir_opts`: the templates and what each entry does. -/
def subdir_opts : List (List Char × opt_action) :=
  [("-h".toList, opt_action.key 0),
   ("--help".toList, opt_action.key 0),
   ("subdir=%s".toList, opt_action.set_base),
   ("rellinks".toList, opt_action.set_rellinks 1),
   ("norellinks".toList, opt_action.set_rellinks 0)]

/-- The function `subdir_opt_proc`: `-1`, after the help text, for key 0, and `1`
(keep the argument) for every other key. -/
def subdir_opt_proc (key : Int) : Int := if key = 0 then -1 else 1

/-- Modelled from the spec: template matching of the option parser of the library
(`lib/fuse_opt.c`, not part of this source file).  A template that ends in `%s`
matches every argument that begins with what precedes `%s`, the rest being the
parameter; any other template matches the argument equal to it. -/
def template_match (templ arg : List Char) : Option (List Char) :=
  match templ.reverse with
  | 's' :: '%' :: rev =>
    if rev.reverse <+: arg then some (arg.drop rev.length) else none
  | _ => if templ = arg then some [] else none

/-- Modelled from the spec: the first entry of an option table that matches the
argument, with the parameter (`lib/fuse_opt.c`, not part of this source file). -/
def find_opt (arg : List Char) : List (List Char × opt_action) → Option (opt_action × List Char)
  | [] => none
  | (templ, act) :: rest =>
    match template_match templ arg with
    | some param => some (act, param)
    | none => find_opt arg rest

/-- Modelled from the spec: the option parser `fuse_opt_parse` of the library
(`lib/fuse_opt.c`, not part of this source file), run on the table `subdir_opts` with
the procedure `subdir_opt_proc` over the option words of the command line, in order.
An entry with a key calls the procedure, and so does an argument no entry matches
(with the key `-1` of an unknown option); the parse fails, `none`, when the procedure
returns `-1`.  The recognized options are `subdir=DIR`, `rellinks` and `norellinks`;
`-h` and `--help` ask for the help text. -/
def fuse_opt_parse : List (List Char) → subdir_options → Option subdir_options
  | [], d => some d
  | arg :: args, d =>
    match find_opt arg subdir_opts with
    | some (opt_action.key k, _) =>
      if subdir_opt_proc k = -1 then none else fuse_opt_parse args d
    | some (opt_action.set_base, param) => fuse_opt_parse args ⟨some param, d.rellinks⟩
    | some (opt_action.set_rellinks v, _) => fuse_opt_parse args ⟨d.base, v⟩
    | none => if subdir_opt_proc (-1) = -1 then none else fuse_opt_parse args d

/-- The function `subdir_new`: the module state handed to `fuse_fs_new` when the mount
is accepted, `none` when the function returns a null pointer.  `parse` is the call
`fuse_opt_parse(args, d, subdir_opts, subdir_opt_proc)` on the zeroed structure,
`next` the array of inner filesystems up to its null entry, and the three flags say
whether `calloc`, `realloc` and `fuse_fs_new` succeed. -/
def subdir_new {σ : Type} (calloc_succeeds : Bool)
    (parse : subdir_options → Option subdir_options) (next : List (fuse_fs σ))
    (realloc_succeeds fuse_fs_new_succeeds : Bool) : Option (subdir σ) :=
  if calloc_succeeds = false then none
  else
    match parse ⟨none, 0⟩ with
    | none => none
    | some o =>
      match next with
      | [next0] =>
        match o.base with
        | none => none
        | some base =>
          if deref base ≠ NUL ∧ deref (base.drop (strlen base - 1)) ≠ '/' then
            if realloc_succeeds = false then none
            else
              let base := strcat base ['/']
              if fuse_fs_new_succeeds = false then none
              else some ⟨base, strlen base, o.rellinks, next0⟩
          else
            if fuse_fs_new_succeeds = false then none
            else some ⟨base, strlen base, o.rellinks, next0⟩
      | _ => none

/-! ## Notions of the specification -/

/-- The specification's `strip_leading_slash`: one leading `/` removed, if present. -/
def strip_leading_slash : List Char → List Char
  | [] => []
  | c :: p => if c = '/' then p else c :: p

/-- The specification's `count` repetitions of `../`. -/
def dotdot_blocks : Nat → List Char
  | 0 => []
  | n + 1 => '.' :: '.' :: '/' :: dotdot_blocks n

/-- The string `transform_symlink` puts after the `../` blocks: the remainder `l` of the
target, or `.` when that is empty and there is no block, or nothing. -/
def new_suffix (l : List Char) (dotdots : Nat) : List Char :=
  if strlen l ≠ 0 then cstr l else if dotdots = 0 then ['.'] else []

/-- Path segments, read with an open segment `cur`: the maximal runs of bytes other
than `/` in the string, in order. -/
def segments_from (cur : List Char) : List Char → List (List Char)
  | [] => if cur = [] then [] else [cur]
  | c :: p =>
    if c = NUL then (if cur = [] then [] else [cur])
    else if c = '/' then (if cur = [] then segments_from [] p else cur :: segments_from [] p)
    else segments_from (cur ++ [c]) p

/-- The specification's path segments of a string: its maximal runs of non-separator
bytes; runs of separators count as one boundary. -/
def segments (p : List Char) : List (List Char) := segments_from [] p

/-- One step of path resolution: `..` removes the last segment, `.` is skipped, any
other segment is entered. -/
def resolve_step (dir : List (List Char)) (seg : List Char) : List (List Char) :=
  if seg = ['.', '.'] then dir.dropLast else if seg = ['.'] then dir else dir ++ [seg]

/-- Resolution of a path, segment by segment, starting from the directory `dir`. -/
def resolve (dir : List (List Char)) (p : List Char) : List (List Char) :=
  (segments p).foldl resolve_step dir

/-- No two separators in a row occur in the string. -/
def single_slashes : List Char → Bool
  | [] => true
  | c :: p =>
    if c = NUL then true
    else if c = '/' ∧ deref p = '/' then false
    else single_slashes p

/-- The bytes a list of segments takes when each is followed by one separator. -/
def segments_width : List (List Char) → Nat
  | [] => 0
  | seg :: segs => seg.length + 1 + segments_width segs

/-- The bytes of the segment that starts at `p`: those before the next separator or
the terminator; none when `p` is on one of them. -/
def segment_at : List Char → List Char
  | [] => []
  | c :: p => if c ≠ NUL ∧ c ≠ '/' then c :: segment_at p else []

/-- A buffer of `cap` bytes holding the string `s` followed by NUL bytes. -/
def mkbuf (s : List Char) (cap : Nat) : List Char := s ++ List.replicate (cap - s.length) NUL

/-! ## Concrete configurations -/

/-- A provider with no state that succeeds at everything and leaves buffers alone. -/
def nofs : fuse_fs Unit where
  rename := fun _ _ _ => (0, ())
  link := fun _ _ _ => (0, ())
  readlink := fun _ _ buf _ => (0, buf, ())
  symlink := fun _ _ _ => (0, ())
  Args := fun _ => Unit
  call := fun _ _ _ _ => (0, ())

/-- The configuration with base `/mnt/sub/` and relative links switched on. -/
def dsub : subdir Unit := ⟨"/mnt/sub/".toList, 9, 1, nofs⟩

/-- A provider that records the paths of every call in its state.  Its `rename` and
`symlink` succeed, its `link` fails with status `-17`, its `readlink` succeeds or
fails as the flag says after storing the target `/mnt/sub/a/c/file`, and its one-path
calls take a number as argument and return it as status. -/
def logfs (readlink_ok : Bool) : fuse_fs (List (List Char)) where
  rename := fun st a b => (0, st ++ [cstr a, cstr b])
  link := fun st a b => (-17, st ++ [cstr a, cstr b])
  readlink := fun st a buf _ =>
    (if readlink_ok then 0 else -2, mkbuf "/mnt/sub/a/c/file".toList buf.length,
      st ++ [cstr a])
  symlink := fun st a b => (0, st ++ [cstr a, cstr b])
  Args := fun _ => Int
  call := fun _ st a n => (n, st ++ [cstr a])

/-- The configuration with base `/mnt/sub/` over the recording provider. -/
def dlog (rellinks : Int) (readlink_ok : Bool) : subdir (List (List Char)) :=
  ⟨"/mnt/sub/".toList, 9, rellinks, logfs readlink_ok⟩

/-- A configuration whose base `/mnt/sub` lacks the final separator. -/
def dsub_bare : subdir Unit := ⟨"/mnt/sub".toList, 8, 1, nofs⟩

/-- An allocator that always succeeds, with zeroed blocks. -/
def calloc_ok (n : Nat) : Option (List Char) := some (List.replicate n NUL)

/-- An allocator that always fails. -/
def malloc_fail (_ : Nat) : Option (List Char) := none

/-! ## Strings and buffers: basic facts -/

theorem nul_ne_slash : NUL ≠ '/' := by decide

theorem nul_ne_dot : NUL ≠ '.' := by decide

theorem strlen_eq_length_cstr (p : List Char) : strlen p = (cstr p).length := by
  induction p with
  | nil => rfl
  | cons c p ih => by_cases h : c = NUL <;> simp [strlen, cstr, h, ih]

theorem not_nul_of_mem_cstr {c : Char} {p : List Char} (h : c ∈ cstr p) : c ≠ NUL := by
  induction p with
  | nil => simp [cstr] at h
  | cons a p ih =>
    by_cases ha : a = NUL
    · simp [cstr, ha] at h
    · simp only [cstr, ha, if_false, List.mem_cons] at h
      rcases h with h | h
      · exact h ▸ ha
      · exact ih h

theorem cstr_append (w r : List Char) (hw : ∀ c ∈ w, c ≠ NUL) :
    cstr (w ++ r) = w ++ cstr r := by
  induction w with
  | nil => rfl
  | cons a w ih =>
    have ha : a ≠ NUL := hw a (List.mem_cons_self _ _)
    have hw2 : ∀ c ∈ w, c ≠ NUL := fun c hc => hw c (List.mem_cons_of_mem _ hc)
    simp [cstr, ha, ih hw2]

theorem cstr_nul_cons (r : List Char) : cstr (NUL :: r) = [] := by
  simp [cstr]

theorem cstr_append_nul (w r : List Char) (hw : ∀ c ∈ w, c ≠ NUL) :
    cstr (w ++ NUL :: r) = w := by
  rw [cstr_append w _ hw, cstr_nul_cons, List.append_nil]

theorem cstr_of_no_nul (w : List Char) (hw : ∀ c ∈ w, c ≠ NUL) : cstr w = w := by
  have := cstr_append w [] hw
  simpa [cstr] using this

theorem cstr_cstr (p : List Char) : cstr (cstr p) = cstr p :=
  cstr_of_no_nul _ (fun _ h => not_nul_of_mem_cstr h)

theorem strlen_le_length (p : List Char) : strlen p ≤ p.length := by
  induction p with
  | nil => simp [strlen]
  | cons c p ih => by_cases h : c = NUL <;> simp [strlen, h]; omega

theorem take_strlen (p : List Char) : p.take (strlen p) = cstr p := by
  induction p with
  | nil => rfl
  | cons c p ih => by_cases h : c = NUL <;> simp [strlen, cstr, h, ih]

theorem take_le_strlen (p : List Char) (n : Nat) (h : n ≤ strlen p) :
    p.take n = (cstr p).take n := by
  rw [← take_strlen p, List.take_take, Nat.min_eq_left h]

theorem deref_eq_nul_iff (p : List Char) : deref p = NUL ↔ cstr p = [] := by
  cases p with
  | nil => simp [deref, cstr]
  | cons c p => by_cases h : c = NUL <;> simp [deref, cstr, h]

theorem length_memwrite (buf : List Char) (off : Nat) (bytes : List Char) :
    (memwrite buf off bytes).length = max buf.length (off + bytes.length) := by
  simp only [memwrite, List.length_append, List.length_take, List.length_replicate,
    List.length_drop]
  omega

theorem memwrite_of_le (buf : List Char) (off : Nat) (bytes : List Char)
    (h : off ≤ buf.length) :
    memwrite buf off bytes = buf.take off ++ bytes ++ buf.drop (off + bytes.length) := by
  simp [memwrite, Nat.sub_eq_zero_of_le h]

theorem cstr_strcpy (buf : List Char) (off : Nat) (src : List Char) (h : off ≤ strlen buf) :
    cstr (strcpy buf off src) = (cstr buf).take off ++ cstr src := by
  have hlen : off ≤ buf.length := le_trans h (strlen_le_length buf)
  rw [strcpy, memwrite_of_le _ _ _ hlen, take_le_strlen _ _ h]
  have h1 : ∀ c ∈ (cstr buf).take off ++ cstr src, c ≠ NUL := by
    intro c hc
    rcases List.mem_append.1 hc with hc | hc
    · exact not_nul_of_mem_cstr (List.mem_of_mem_take hc)
    · exact not_nul_of_mem_cstr hc
  have : List.take off (cstr buf) ++ (cstr src ++ [NUL]) ++
      List.drop (off + (cstr src ++ [NUL]).length) buf =
      (List.take off (cstr buf) ++ cstr src) ++
        NUL :: List.drop (off + (cstr src ++ [NUL]).length) buf := by
    simp
  rw [this, cstr_append_nul _ _ h1]

theorem length_strcpy (buf : List Char) (off : Nat) (src : List Char) :
    (strcpy buf off src).length = max buf.length (off + strlen src + 1) := by
  rw [strcpy, length_memwrite, strlen_eq_length_cstr]
  simp [Nat.add_assoc]

theorem cstr_tail_of_slash (p : List Char) (h : deref p = '/') :
    cstr p = '/' :: cstr p.tail := by
  cases p with
  | nil => exact absurd h nul_ne_slash
  | cons c p =>
    simp only [deref, List.headD_cons] at h
    subst h
    simp [cstr, nul_ne_slash.symm]

theorem cstr_strip_path (path : List Char) :
    cstr (if deref path = '/' then path.tail else path) = strip_leading_slash (cstr path) := by
  by_cases h : deref path = '/'
  · rw [if_pos h, cstr_tail_of_slash path h]
    simp [strip_leading_slash]
  · rw [if_neg h]
    cases path with
    | nil => rfl
    | cons c p =>
      simp only [deref, List.headD_cons] at h
      by_cases hc : c = NUL
      · simp [cstr, hc, strip_leading_slash]
      · simp [cstr, hc, strip_leading_slash, h]

theorem strlen_strip_path_le (path : List Char) :
    strlen (if deref path = '/' then path.tail else path) ≤ strlen path := by
  by_cases h : deref path = '/'
  · rw [if_pos h, strlen_eq_length_cstr, strlen_eq_length_cstr, cstr_tail_of_slash path h]
    simp
  · rw [if_neg h]

/-- What `subdir_addpath` leaves in the block it was given. -/
theorem subdir_addpath_some {σ : Type} (malloc : Nat → Option (List Char)) (d : subdir σ)
    (path block : List Char)
    (hm : malloc (((d.baselen + strlen path) % 2 ^ 32 + 2) % 2 ^ 32) = some block)
    (hlen : d.baselen = strlen d.base) :
    ∃ newpath, subdir_addpath malloc d path = some newpath ∧
      cstr newpath = (if cstr d.base ++ strip_leading_slash (cstr path) = [] then ['.']
        else cstr d.base ++ strip_leading_slash (cstr path)) ∧
      (block.length = d.baselen + strlen path + 2 → newpath.length = block.length) := by
  have h1 : cstr (strcpy block 0 d.base) = cstr d.base := by
    rw [cstr_strcpy _ _ _ (Nat.zero_le _)]; simp
  have h1s : strlen (strcpy block 0 d.base) = d.baselen := by
    rw [strlen_eq_length_cstr, h1, ← strlen_eq_length_cstr, hlen]
  have h2 : cstr (strcpy (strcpy block 0 d.base) d.baselen
      (if deref path = '/' then path.tail else path)) =
      cstr d.base ++ strip_leading_slash (cstr path) := by
    rw [cstr_strcpy _ _ _ (le_of_eq h1s.symm), h1, cstr_strip_path, hlen,
      strlen_eq_length_cstr, List.take_length]
  have hl2 : block.length = d.baselen + strlen path + 2 →
      (strcpy (strcpy block 0 d.base) d.baselen
        (if deref path = '/' then path.tail else path)).length = block.length := by
    intro hb
    have := strlen_strip_path_le path
    rw [length_strcpy, length_strcpy]
    omega
  simp only [subdir_addpath, hm]
  refine ⟨_, rfl, ?_, ?_⟩
  · by_cases h0 : cstr d.base ++ strip_leading_slash (cstr path) = []
    · have hd : deref (strcpy (strcpy block 0 d.base) d.baselen
          (if deref path = '/' then path.tail else path)) = NUL := by
        rw [deref_eq_nul_iff, h2, h0]
      rw [if_pos hd, cstr_strcpy _ _ _ (Nat.zero_le _), if_pos h0]
      simp [cstr, nul_ne_dot.symm]
    · have hd : ¬ deref (strcpy (strcpy block 0 d.base) d.baselen
          (if deref path = '/' then path.tail else path)) = NUL := by
        rw [deref_eq_nul_iff, h2]; exact h0
      rw [if_neg hd, h2, if_neg h0]
  · intro hb
    by_cases hd : deref (strcpy (strcpy block 0 d.base) d.baselen
        (if deref path = '/' then path.tail else path)) = NUL
    · have hL := hl2 hb
      have h1 : strlen ['.'] = 1 := by decide
      rw [if_pos hd, length_strcpy, h1]
      omega
    · rw [if_neg hd]
      exact hl2 hb

theorem subdir_addpath_none_iff {σ : Type} (malloc : Nat → Option (List Char)) (d : subdir σ)
    (path : List Char) :
    subdir_addpath malloc d path = none ↔
      malloc (((d.baselen + strlen path) % 2 ^ 32 + 2) % 2 ^ 32) = none := by
  simp only [subdir_addpath]
  cases malloc (((d.baselen + strlen path) % 2 ^ 32 + 2) % 2 ^ 32) with
  | none => exact ⟨fun _ => rfl, fun _ => rfl⟩
  | some b => exact ⟨fun h => (by cases h), fun h => (by cases h)⟩

theorem cstr_of_subdir_addpath {σ : Type} (malloc : Nat → Option (List Char)) (d : subdir σ)
    (path newpath : List Char) (hlen : d.baselen = strlen d.base)
    (h : subdir_addpath malloc d path = some newpath) :
    cstr newpath = (if cstr d.base ++ strip_leading_slash (cstr path) = [] then ['.']
      else cstr d.base ++ strip_leading_slash (cstr path)) := by
  cases hm : malloc (((d.baselen + strlen path) % 2 ^ 32 + 2) % 2 ^ 32) with
  | none => rw [(subdir_addpath_none_iff malloc d path).2 hm] at h; cases h
  | some block =>
    obtain ⟨np, hnp, hc, _⟩ := subdir_addpath_some malloc d path block hm hlen
    rw [hnp] at h
    cases h
    exact hc

/-! ## The loops of `count_components` and `strip_common` -/

theorem deref_cons (c : Char) (p : List Char) : deref (c :: p) = c := rfl

theorem deref_nil : deref [] = NUL := rfl

theorem skip_slashes_length_le (p : List Char) : (skip_slashes p).length ≤ p.length := by
  induction p with
  | nil => simp [skip_slashes]
  | cons c p ih =>
    by_cases h : c = '/'
    · simp only [skip_slashes, h, if_true, List.length_cons]; omega
    · simp [skip_slashes, h]

theorem deref_skip_slashes (p : List Char) : deref (skip_slashes p) ≠ '/' := by
  induction p with
  | nil => exact nul_ne_slash
  | cons c p ih =>
    by_cases h : c = '/'
    · simpa [skip_slashes, h] using ih
    · simp [skip_slashes, h, deref]

theorem skip_slashes_of_deref_ne (p : List Char) (h : deref p ≠ '/') : skip_slashes p = p := by
  cases p with
  | nil => rfl
  | cons c p => simp only [deref_cons] at h; simp [skip_slashes, h]

/-- The bytes `skip_slashes` passes over are separators. -/
theorem skip_slashes_split (p : List Char) :
    ∃ k, p = List.replicate k '/' ++ skip_slashes p := by
  induction p with
  | nil => exact ⟨0, rfl⟩
  | cons c p ih =>
    by_cases h : c = '/'
    · obtain ⟨k, hk⟩ := ih
      refine ⟨k + 1, ?_⟩
      simp only [skip_slashes, h, if_true, List.replicate_succ, List.cons_append]
      rw [← hk]
    · exact ⟨0, by simp [skip_slashes, h]⟩

theorem skip_component_cons_pos (c : Char) (p : List Char) (h : c ≠ NUL ∧ c ≠ '/') :
    skip_component (c :: p) = skip_component p := by
  simp [skip_component, h.1, h.2]

theorem skip_component_cons_neg (c : Char) (p : List Char) (h : ¬ (c ≠ NUL ∧ c ≠ '/')) :
    skip_component (c :: p) = c :: p := by
  rw [skip_component, if_neg h]

theorem match_segment_cons_pos (a b : Char) (s t : List Char)
    (h : a = b ∧ a ≠ NUL ∧ a ≠ '/') :
    match_segment (a :: s) (b :: t) = match_segment s t := by
  rw [match_segment, if_pos h]

theorem match_segment_cons_neg (a b : Char) (s t : List Char)
    (h : ¬ (a = b ∧ a ≠ NUL ∧ a ≠ '/')) :
    match_segment (a :: s) (b :: t) = (a :: s, b :: t) := by
  rw [match_segment, if_neg h]

/-- The bytes `skip_component` passes over are neither NUL nor separators, and it
stops on one of the two. -/
theorem skip_component_split (p : List Char) :
    ∃ w, p = w ++ skip_component p ∧ (∀ c ∈ w, c ≠ NUL ∧ c ≠ '/') ∧
      (deref (skip_component p) = NUL ∨ deref (skip_component p) = '/') := by
  induction p with
  | nil => exact ⟨[], rfl, by simp, Or.inl rfl⟩
  | cons c p ih =>
    by_cases h : c ≠ NUL ∧ c ≠ '/'
    · obtain ⟨w, hw, hc, hd⟩ := ih
      refine ⟨c :: w, ?_, ?_, ?_⟩
      · rw [skip_component_cons_pos c p h, List.cons_append, ← hw]
      · intro x hx
        rcases List.mem_cons.1 hx with hx | hx
        · exact hx ▸ h
        · exact hc x hx
      · rw [skip_component_cons_pos c p h]
        exact hd
    · rw [skip_component_cons_neg c p h]
      refine ⟨[], rfl, by simp, ?_⟩
      rw [deref_cons]
      by_cases h1 : c = NUL
      · exact Or.inl h1
      · right
        by_contra h2
        exact h ⟨h1, h2⟩

/-- The bytes `match_segment` passes over are the same in both strings and are neither
NUL nor separators; it stops where the loop test fails. -/
theorem match_segment_split (s t : List Char) :
    ∃ w, s = w ++ (match_segment s t).1 ∧ t = w ++ (match_segment s t).2 ∧
      (∀ c ∈ w, c ≠ NUL ∧ c ≠ '/') ∧
      ¬ (deref (match_segment s t).1 = deref (match_segment s t).2 ∧
        deref (match_segment s t).1 ≠ NUL ∧ deref (match_segment s t).1 ≠ '/') := by
  induction s generalizing t with
  | nil => exact ⟨[], by simp [match_segment], by simp [match_segment], by simp,
      by simp [match_segment, deref]⟩
  | cons a s ih =>
    cases t with
    | nil =>
      refine ⟨[], by simp [match_segment], by simp [match_segment], by simp, ?_⟩
      simp only [match_segment, deref_cons, deref_nil]
      rintro ⟨h1, h2, _⟩
      exact h2 h1
    | cons b t =>
      by_cases h : a = b ∧ a ≠ NUL ∧ a ≠ '/'
      · obtain ⟨w, h1, h2, h3, h4⟩ := ih t
        refine ⟨a :: w, ?_, ?_, ?_, ?_⟩
        · rw [match_segment_cons_pos a b s t h, List.cons_append, ← h1]
        · rw [match_segment_cons_pos a b s t h, List.cons_append, ← h2, h.1]
        · intro x hx
          rcases List.mem_cons.1 hx with hx | hx
          · exact hx ▸ h.2
          · exact h3 x hx
        · rw [match_segment_cons_pos a b s t h]
          exact h4
      · rw [match_segment_cons_neg a b s t h]
        exact ⟨[], rfl, rfl, by simp, h⟩

theorem strip_common_continue_iff (s t : List Char) :
    strip_common_continue s t = true ↔
      ((deref s = deref t ∧ deref s ≠ NUL) ∨ (deref s = NUL ∧ deref t = '/')
        ∨ (deref s = '/' ∧ deref t = NUL)) := by
  simp [strip_common_continue]

/-- When the continuation test of `strip_common` holds after `match_segment`, each
cursor is on a separator or on the terminator, and at least one is on a separator. -/
theorem continue_after_match (s t : List Char)
    (h : strip_common_continue (match_segment s t).1 (match_segment s t).2 = true) :
    (deref (match_segment s t).1 = '/' ∨ deref (match_segment s t).1 = NUL) ∧
    (deref (match_segment s t).2 = '/' ∨ deref (match_segment s t).2 = NUL) ∧
    (deref (match_segment s t).1 = '/' ∨ deref (match_segment s t).2 = '/') := by
  obtain ⟨w, _, _, _, hstop⟩ := match_segment_split s t
  rw [strip_common_continue_iff] at h
  rcases h with ⟨h1, h2⟩ | ⟨h1, h2⟩ | ⟨h1, h2⟩
  · have h3 : deref (match_segment s t).1 = '/' := by
      by_contra h3
      exact hstop ⟨h1, h2, h3⟩
    exact ⟨Or.inl h3, Or.inl (h1 ▸ h3), Or.inl h3⟩
  · exact ⟨Or.inr h1, Or.inl h2, Or.inr h2⟩
  · exact ⟨Or.inl h1, Or.inr h2, Or.inl h1⟩

/-- An iteration of `strip_common` whose continuation test holds has passed over a
non-empty segment in both strings. -/
theorem match_segment_progress (s t : List Char) (hs : deref s ≠ '/') (ht : deref t ≠ '/')
    (h : strip_common_continue (match_segment s t).1 (match_segment s t).2 = true) :
    ∃ w, w ≠ [] ∧ s = w ++ (match_segment s t).1 ∧ t = w ++ (match_segment s t).2 ∧
      (∀ c ∈ w, c ≠ NUL ∧ c ≠ '/') := by
  obtain ⟨w, h1, h2, h3, _⟩ := match_segment_split s t
  obtain ⟨_, _, h6⟩ := continue_after_match s t h
  refine ⟨w, ?_, h1, h2, h3⟩
  rintro rfl
  simp only [List.nil_append] at h1 h2
  rcases h6 with h6 | h6
  · rw [← h1] at h6; exact hs h6
  · rw [← h2] at h6; exact ht h6

theorem strip_common_loop_succ (n : Nat) (s t : List Char) :
    strip_common_loop (n + 1) s t =
      if strip_common_continue (match_segment (skip_slashes s) (skip_slashes t)).1
          (match_segment (skip_slashes s) (skip_slashes t)).2 then
        strip_common_loop n (match_segment (skip_slashes s) (skip_slashes t)).1
          (match_segment (skip_slashes s) (skip_slashes t)).2
      else some (skip_slashes s, skip_slashes t) := rfl

/-- An iteration of `strip_common` that continues leaves strictly less to read. -/
theorem strip_common_step_decreases (s t : List Char)
    (h : strip_common_continue (match_segment (skip_slashes s) (skip_slashes t)).1
      (match_segment (skip_slashes s) (skip_slashes t)).2 = true) :
    (match_segment (skip_slashes s) (skip_slashes t)).1.length +
      (match_segment (skip_slashes s) (skip_slashes t)).2.length + 2 ≤ s.length + t.length := by
  obtain ⟨w, hw, h1, h2, _⟩ := match_segment_progress _ _ (deref_skip_slashes s)
    (deref_skip_slashes t) h
  have l1 := congrArg List.length h1
  have l2 := congrArg List.length h2
  have l3 := skip_slashes_length_le s
  have l4 := skip_slashes_length_le t
  have l5 : 0 < w.length := List.length_pos.2 hw
  rw [List.length_append] at l1 l2
  omega

/-- The loop of `strip_common` exits within `s.length + t.length + 1` iterations. -/
theorem strip_common_loop_terminates (n : Nat) (s t : List Char)
    (h : s.length + t.length < n) : ∃ r, strip_common_loop n s t = some r := by
  induction n generalizing s t with
  | zero => omega
  | succ n ih =>
    rw [strip_common_loop_succ]
    by_cases hc : strip_common_continue (match_segment (skip_slashes s) (skip_slashes t)).1
        (match_segment (skip_slashes s) (skip_slashes t)).2 = true
    · rw [if_pos hc]
      apply ih
      have := strip_common_step_decreases s t hc
      omega
    · rw [if_neg hc]
      exact ⟨_, rfl⟩

/-- Further iterations allowed to the loop of `strip_common` do not change its result. -/
theorem strip_common_loop_mono (n m : Nat) (s t : List Char) (r : List Char × List Char)
    (h : strip_common_loop n s t = some r) (hnm : n ≤ m) : strip_common_loop m s t = some r := by
  induction n generalizing s t m with
  | zero => simp [strip_common_loop] at h
  | succ n ih =>
    obtain ⟨m, rfl⟩ : ∃ k, m = k + 1 := ⟨m - 1, by omega⟩
    rw [strip_common_loop_succ] at h ⊢
    by_cases hc : strip_common_continue (match_segment (skip_slashes s) (skip_slashes t)).1
        (match_segment (skip_slashes s) (skip_slashes t)).2 = true
    · rw [if_pos hc] at h ⊢
      exact ih _ _ _ h (by omega)
    · rw [if_neg hc] at h ⊢
      exact h

theorem strip_common_eq_loop (s t : List Char) :
    strip_common_loop (s.length + t.length + 1) s t = some (strip_common s t) := by
  obtain ⟨r, hr⟩ := strip_common_loop_terminates (s.length + t.length + 1) s t (by omega)
  rw [strip_common, hr]
  rfl

/-- The function `strip_common` satisfies the equation of its `do ... while` loop. -/
theorem strip_common_unfold (s t : List Char) :
    strip_common s t =
      if strip_common_continue (match_segment (skip_slashes s) (skip_slashes t)).1
          (match_segment (skip_slashes s) (skip_slashes t)).2 then
        strip_common (match_segment (skip_slashes s) (skip_slashes t)).1
          (match_segment (skip_slashes s) (skip_slashes t)).2
      else (skip_slashes s, skip_slashes t) := by
  have h := strip_common_eq_loop s t
  rw [strip_common_loop_succ] at h
  by_cases hc : strip_common_continue (match_segment (skip_slashes s) (skip_slashes t)).1
      (match_segment (skip_slashes s) (skip_slashes t)).2 = true
  · rw [if_pos hc] at h ⊢
    have h2 := strip_common_eq_loop (match_segment (skip_slashes s) (skip_slashes t)).1
      (match_segment (skip_slashes s) (skip_slashes t)).2
    have h3 := strip_common_loop_mono _ (s.length + t.length) _ _ _ h2
      (by have := strip_common_step_decreases s t hc; omega)
    rw [h3] at h
    exact (Option.some.inj h).symm
  · rw [if_neg hc] at h ⊢
    exact (Option.some.inj h).symm

/-- Induction along the iterations of `strip_common`: a property that holds when the
loop exits, and is carried back over an iteration that continues, holds of the result. -/
theorem strip_common_induction (Q : List Char → List Char → List Char × List Char → Prop)
    (hstop : ∀ s t,
      strip_common_continue (match_segment (skip_slashes s) (skip_slashes t)).1
        (match_segment (skip_slashes s) (skip_slashes t)).2 = false →
      Q s t (skip_slashes s, skip_slashes t))
    (hstep : ∀ s t r,
      strip_common_continue (match_segment (skip_slashes s) (skip_slashes t)).1
        (match_segment (skip_slashes s) (skip_slashes t)).2 = true →
      Q (match_segment (skip_slashes s) (skip_slashes t)).1
        (match_segment (skip_slashes s) (skip_slashes t)).2 r → Q s t r)
    (s t : List Char) : Q s t (strip_common s t) := by
  have key : ∀ n s t r, strip_common_loop n s t = some r → Q s t r := by
    intro n
    induction n with
    | zero => intro s t r h; simp [strip_common_loop] at h
    | succ n ih =>
      intro s t r h
      rw [strip_common_loop_succ] at h
      by_cases hc : strip_common_continue
          (match_segment (skip_slashes s) (skip_slashes t)).1
          (match_segment (skip_slashes s) (skip_slashes t)).2 = true
      · rw [if_pos hc] at h
        exact hstep s t r hc (ih _ _ _ h)
      · rw [if_neg hc] at h
        cases h
        exact hstop s t (by simpa using hc)
  exact key _ s t _ (strip_common_eq_loop s t)

/-! ## Segments -/

theorem segments_from_clean (w r cur : List Char) (hw : ∀ c ∈ w, c ≠ NUL ∧ c ≠ '/') :
    segments_from cur (w ++ r) = segments_from (cur ++ w) r := by
  induction w generalizing cur with
  | nil => simp
  | cons a w ih =>
    have ha := hw a (List.mem_cons_self _ _)
    have hw2 : ∀ c ∈ w, c ≠ NUL ∧ c ≠ '/' := fun c hc => hw c (List.mem_cons_of_mem _ hc)
    rw [List.cons_append, segments_from, if_neg ha.1, if_neg ha.2, ih _ hw2]
    simp

theorem segments_of_deref_nul (r : List Char) (h : deref r = NUL) : segments r = [] := by
  cases r with
  | nil => rfl
  | cons c r =>
    rw [deref_cons] at h
    simp [segments, segments_from, h]

theorem segments_slash_cons (r : List Char) : segments ('/' :: r) = segments r := by
  simp [segments, segments_from, nul_ne_slash.symm]

/-- At a separator or at the terminator the open segment is closed. -/
theorem segments_from_boundary (cur r : List Char) (h : deref r = NUL ∨ deref r = '/') :
    segments_from cur r = (if cur = [] then [] else [cur]) ++ segments r := by
  cases r with
  | nil => simp [segments, segments_from]
  | cons c r =>
    rw [deref_cons] at h
    rcases h with h | h
    · subst h
      simp [segments, segments_from]
    · subst h
      by_cases hc : cur = []
      · simp [segments, segments_from, nul_ne_slash.symm, hc]
      · simp [segments, segments_from, nul_ne_slash.symm, hc]

/-- A non-empty run of ordinary bytes followed by a boundary is one segment. -/
theorem segments_clean_append (w r : List Char) (hw : ∀ c ∈ w, c ≠ NUL ∧ c ≠ '/')
    (hne : w ≠ []) (h : deref r = NUL ∨ deref r = '/') :
    segments (w ++ r) = w :: segments r := by
  rw [segments, segments_from_clean w r [] hw, List.nil_append,
    segments_from_boundary w r h, if_neg hne]
  rfl

theorem segments_skip_slashes (p : List Char) : segments (skip_slashes p) = segments p := by
  induction p with
  | nil => rfl
  | cons c p ih =>
    by_cases h : c = '/'
    · subst h
      rw [segments_slash_cons, ← ih]
      simp [skip_slashes]
    · simp [skip_slashes, h]

/-! ## `count_components` counts segments -/

theorem count_components_loop_eq (n : Nat) (p : List Char) (ctr : Nat) (hn : p.length < n)
    (hp : deref p ≠ '/') :
    count_components_loop n p ctr = some (ctr + (segments p).length) := by
  induction n generalizing p ctr with
  | zero => omega
  | succ n ih =>
    rw [count_components_loop]
    by_cases h : deref p ≠ NUL
    · rw [if_pos h]
      obtain ⟨w, hw, hclean, hb⟩ := skip_component_split p
      have hne : w ≠ [] := by
        rintro rfl
        rw [List.nil_append] at hw
        rw [← hw] at hb
        rcases hb with hb | hb
        · exact h hb
        · exact hp hb
      have hl : (skip_slashes (skip_component p)).length < n := by
        have l1 := skip_slashes_length_le (skip_component p)
        have l2 := congrArg List.length hw
        have l3 : 0 < w.length := List.length_pos.2 hne
        rw [List.length_append] at l2
        omega
      rw [ih _ _ hl (deref_skip_slashes _), segments_skip_slashes]
      have hs : segments p = w :: segments (skip_component p) := by
        conv_lhs => rw [hw]
        exact segments_clean_append w _ hclean hne hb
      rw [hs, List.length_cons]
      congr 1
      omega
    · rw [if_neg h]
      push_neg at h
      rw [segments_of_deref_nul p h]
      rfl

/-- The function `count_components` returns the number of segments of its argument;
in particular its loop exits within the iterations allowed. -/
theorem count_components_eq (p : List Char) : count_components p = (segments p).length := by
  rw [count_components, count_components_loop_eq _ _ _
    (Nat.lt_succ_of_le (skip_slashes_length_le p)) (deref_skip_slashes p),
    segments_skip_slashes]
  simp

/-! ## What `strip_common` returns -/

theorem deref_strip_common_fst (s t : List Char) : deref (strip_common s t).1 ≠ '/' :=
  strip_common_induction (fun _ _ r => deref r.1 ≠ '/')
    (fun s _ _ => deref_skip_slashes s) (fun _ _ _ _ h => h) s t

theorem deref_strip_common_snd (s t : List Char) : deref (strip_common s t).2 ≠ '/' :=
  strip_common_induction (fun _ _ r => deref r.2 ≠ '/')
    (fun _ t _ => deref_skip_slashes t) (fun _ _ _ _ h => h) s t

theorem not_nul_of_mem_replicate_slash (k : Nat) : ∀ c ∈ List.replicate k '/', c ≠ NUL := by
  intro c hc
  rw [List.eq_of_mem_replicate hc]
  exact nul_ne_slash.symm

/-- The first result of `strip_common` is a suffix of the first string that starts
before its terminator. -/
theorem strip_common_fst_suffix (s t : List Char) :
    ∃ pre, s = pre ++ (strip_common s t).1 ∧ ∀ c ∈ pre, c ≠ NUL := by
  refine strip_common_induction (fun s _ r => ∃ pre, s = pre ++ r.1 ∧ ∀ c ∈ pre, c ≠ NUL)
    ?_ ?_ s t
  · intro s t _
    obtain ⟨k, hk⟩ := skip_slashes_split s
    exact ⟨_, hk, not_nul_of_mem_replicate_slash k⟩
  · intro s t r hc ⟨pre, hpre, hnn⟩
    obtain ⟨k, hk⟩ := skip_slashes_split s
    obtain ⟨w, _, h1, _, hclean⟩ := match_segment_progress _ _ (deref_skip_slashes s)
      (deref_skip_slashes t) hc
    refine ⟨List.replicate k '/' ++ (w ++ pre), ?_, ?_⟩
    · conv_lhs => rw [hk, h1, hpre]
      simp
    · intro c hc
      rcases List.mem_append.1 hc with hc | hc
      · exact not_nul_of_mem_replicate_slash k c hc
      · rcases List.mem_append.1 hc with hc | hc
        · exact (hclean c hc).1
        · exact hnn c hc

/-- The second result of `strip_common` is a suffix of the second string that starts
before its terminator. -/
theorem strip_common_snd_suffix (s t : List Char) :
    ∃ pre, t = pre ++ (strip_common s t).2 ∧ ∀ c ∈ pre, c ≠ NUL := by
  refine strip_common_induction (fun _ t r => ∃ pre, t = pre ++ r.2 ∧ ∀ c ∈ pre, c ≠ NUL)
    ?_ ?_ s t
  · intro s t _
    obtain ⟨k, hk⟩ := skip_slashes_split t
    exact ⟨_, hk, not_nul_of_mem_replicate_slash k⟩
  · intro s t r hc ⟨pre, hpre, hnn⟩
    obtain ⟨k, hk⟩ := skip_slashes_split t
    obtain ⟨w, _, _, h2, hclean⟩ := match_segment_progress _ _ (deref_skip_slashes s)
      (deref_skip_slashes t) hc
    refine ⟨List.replicate k '/' ++ (w ++ pre), ?_, ?_⟩
    · conv_lhs => rw [hk, h2, hpre]
      simp
    · intro c hc
      rcases List.mem_append.1 hc with hc | hc
      · exact not_nul_of_mem_replicate_slash k c hc
      · rcases List.mem_append.1 hc with hc | hc
        · exact (hclean c hc).1
        · exact hnn c hc

/-- The parts `strip_common` removes from the two strings have the same segments. -/
theorem strip_common_segments (s t : List Char) :
    ∃ C, segments s = C ++ segments (strip_common s t).1 ∧
      segments t = C ++ segments (strip_common s t).2 := by
  refine strip_common_induction
    (fun s t r => ∃ C, segments s = C ++ segments r.1 ∧ segments t = C ++ segments r.2)
    ?_ ?_ s t
  · intro s t _
    exact ⟨[], by simp [segments_skip_slashes], by simp [segments_skip_slashes]⟩
  · intro s t r hc ⟨C, hC1, hC2⟩
    obtain ⟨w, hne, h1, h2, hclean⟩ := match_segment_progress _ _ (deref_skip_slashes s)
      (deref_skip_slashes t) hc
    obtain ⟨b1, b2, _⟩ := continue_after_match _ _ hc
    refine ⟨w :: C, ?_, ?_⟩
    · rw [← segments_skip_slashes s, List.cons_append, ← hC1]
      conv_lhs => rw [h1]
      exact segments_clean_append w _ hclean hne b1.symm
    · rw [← segments_skip_slashes t, List.cons_append, ← hC2]
      conv_lhs => rw [h2]
      exact segments_clean_append w _ hclean hne b2.symm

/-! ## The writes of `transform_symlink` -/

theorem memread_strlen_succ (l : List Char) : memread l (strlen l + 1) = cstr l ++ [NUL] := by
  induction l with
  | nil => rfl
  | cons c p ih =>
    by_cases h : c = NUL
    · simp [strlen, cstr, h, memread, deref]
    · simp only [strlen, h, if_false, cstr, List.cons_append]
      rw [memread, deref_cons, List.tail_cons, ih]

theorem memwrite_eq_append (buf : List Char) (off : Nat) (bytes : List Char) :
    ∃ pre, pre.length = off ∧
      memwrite buf off bytes = pre ++ (bytes ++ buf.drop (off + bytes.length)) := by
  refine ⟨buf.take off ++ List.replicate (off - buf.length) NUL, ?_, ?_⟩
  · simp only [List.length_append, List.length_take, List.length_replicate]
    omega
  · simp [memwrite]

theorem drop_memwrite (buf : List Char) (off : Nat) (bytes : List Char) :
    (memwrite buf off bytes).drop off = bytes ++ buf.drop (off + bytes.length) := by
  obtain ⟨pre, hl, he⟩ := memwrite_eq_append buf off bytes
  rw [he, List.drop_left' hl]

theorem le_length_memwrite (buf : List Char) (off : Nat) (bytes : List Char) :
    off ≤ (memwrite buf off bytes).length := by
  rw [length_memwrite]
  omega

theorem length_dotdot_blocks (n : Nat) : (dotdot_blocks n).length = n * 3 := by
  induction n with
  | zero => rfl
  | succ n ih => simp only [dotdot_blocks, List.length_cons, ih]; omega

theorem dotdot_blocks_succ_right (n : Nat) :
    dotdot_blocks (n + 1) = dotdot_blocks n ++ ['.', '.', '/'] := by
  induction n with
  | zero => rfl
  | succ n ih =>
    calc dotdot_blocks (n + 1 + 1)
        = '.' :: '.' :: '/' :: dotdot_blocks (n + 1) := rfl
      _ = '.' :: '.' :: '/' :: (dotdot_blocks n ++ ['.', '.', '/']) := by rw [ih]
      _ = dotdot_blocks (n + 1) ++ ['.', '.', '/'] := rfl

theorem not_nul_of_mem_dotdot_blocks (n : Nat) : ∀ c ∈ dotdot_blocks n, c ≠ NUL := by
  induction n with
  | zero => simp [dotdot_blocks]
  | succ n ih =>
    intro c hc
    simp only [dotdot_blocks, List.mem_cons] at hc
    rcases hc with hc | hc | hc | hc
    · exact hc ▸ nul_ne_dot.symm
    · exact hc ▸ nul_ne_dot.symm
    · exact hc ▸ nul_ne_slash.symm
    · exact ih c hc

theorem write_dotdots_succ (buf : List Char) (n : Nat) :
    write_dotdots buf (n + 1) = memcpy (write_dotdots buf n) (n * 3) ['.', '.', '/'] 3 := by
  simp [write_dotdots, List.range_succ]

/-- The `../` blocks overwrite the first `dotdots * 3` bytes and nothing else. -/
theorem write_dotdots_eq (buf : List Char) (n : Nat) (h : n * 3 ≤ buf.length) :
    write_dotdots buf n = dotdot_blocks n ++ buf.drop (n * 3) := by
  induction n with
  | zero => simp [write_dotdots, dotdot_blocks]
  | succ n ih =>
    have ih2 := ih (by omega)
    have hlen := length_dotdot_blocks n
    have hr : memread ['.', '.', '/'] 3 = ['.', '.', '/'] := rfl
    rw [write_dotdots_succ, ih2, memcpy, hr, memwrite,
      List.take_left' hlen, dotdot_blocks_succ_right]
    have e1 : n * 3 - (dotdot_blocks n ++ List.drop (n * 3) buf).length = 0 := by
      rw [List.length_append, hlen]; omega
    have e2 : List.drop (n * 3 + ['.', '.', '/'].length)
        (dotdot_blocks n ++ List.drop (n * 3) buf) = List.drop ((n + 1) * 3) buf := by
      rw [List.drop_append_eq_append_drop, hlen, List.drop_drop]
      have e3 : dotdot_blocks n = List.take (n * 3) (dotdot_blocks n) ++ [] := by
        rw [List.append_nil, List.take_of_length_le (le_of_eq hlen)]
      have e4 : List.drop (n * 3 + ['.', '.', '/'].length) (dotdot_blocks n) = [] := by
        apply List.drop_of_length_le
        rw [hlen]; omega
      rw [e4, List.nil_append]
      congr 1
      simp only [List.length_cons, List.length_nil]
      omega
    rw [e1, e2]
    simp

/-- The store made by `transform_symlink` before the `../` blocks, in all three
branches: the new suffix and its terminator, at offset `dotdots * 3`. -/
theorem transform_symlink_store (buf l : List Char) (dotdots : Nat) :
    (if strlen l ≠ 0 then memmove buf (dotdots * 3) l (strlen l + 1)
      else if dotdots = 0 then strcpy buf (dotdots * 3) ['.']
      else memwrite buf (dotdots * 3) [NUL]) =
    memwrite buf (dotdots * 3) (new_suffix l dotdots ++ [NUL]) := by
  unfold new_suffix
  by_cases h1 : strlen l ≠ 0
  · rw [if_pos h1, if_pos h1, memmove, memread_strlen_succ]
  · rw [if_neg h1, if_neg h1]
    by_cases h2 : dotdots = 0
    · rw [if_pos h2, if_pos h2, strcpy]
      rfl
    · rw [if_neg h2, if_neg h2]
      rfl

/-- The guards of `transform_symlink`, and the buffer it leaves: the `../` blocks,
the new suffix, a terminator, and behind it the bytes that were there. -/
theorem transform_symlink_eq {σ : Type} (d : subdir σ) (path buf : List Char) (size : Nat) :
    transform_symlink d path buf size =
      if deref buf = '/' ∧ deref d.base = '/' ∧
          d.baselen ≤ buf.length - (strip_common buf path).1.length ∧
          count_components (strip_common buf path).2 ≠ 0 ∧
          (count_components (strip_common buf path).2 - 1) * 3 +
            strlen (strip_common buf path).1 + 2 ≤ size then
        dotdot_blocks (count_components (strip_common buf path).2 - 1) ++
          (new_suffix (strip_common buf path).1
              (count_components (strip_common buf path).2 - 1) ++
            NUL :: buf.drop ((count_components (strip_common buf path).2 - 1) * 3 +
              (new_suffix (strip_common buf path).1
                (count_components (strip_common buf path).2 - 1)).length + 1))
      else buf := by
  simp only [transform_symlink]
  by_cases g1 : deref buf ≠ '/' ∨ deref d.base ≠ '/'
  · rw [if_pos g1, if_neg]
    rintro ⟨h1, h2, _⟩
    rcases g1 with g1 | g1
    · exact g1 h1
    · exact g1 h2
  rw [if_neg g1]
  by_cases g2 : buf.length - (strip_common buf path).1.length < d.baselen
  · rw [if_pos g2, if_neg]
    rintro ⟨_, _, h3, _⟩
    omega
  rw [if_neg g2]
  by_cases g3 : count_components (strip_common buf path).2 = 0
  · rw [if_pos g3, if_neg]
    rintro ⟨_, _, _, h4, _⟩
    exact h4 g3
  rw [if_neg g3]
  by_cases g4 : (count_components (strip_common buf path).2 - 1) * 3 +
      strlen (strip_common buf path).1 + 2 > size
  · rw [if_pos g4, if_neg]
    rintro ⟨_, _, _, _, h5⟩
    omega
  have hG : deref buf = '/' ∧ deref d.base = '/' ∧
      d.baselen ≤ buf.length - (strip_common buf path).1.length ∧
      count_components (strip_common buf path).2 ≠ 0 ∧
      (count_components (strip_common buf path).2 - 1) * 3 +
        strlen (strip_common buf path).1 + 2 ≤ size := by
    push_neg at g1
    exact ⟨g1.1, g1.2, by omega, g3, by omega⟩
  rw [if_neg g4, transform_symlink_store, if_pos hG,
    write_dotdots_eq _ _ (le_length_memwrite _ _ _), drop_memwrite]
  simp [Nat.add_assoc]

/-! ## The rewritten target -/

theorem not_nul_of_mem_new_suffix (l : List Char) (n : Nat) :
    ∀ c ∈ new_suffix l n, c ≠ NUL := by
  intro c hc
  unfold new_suffix at hc
  split at hc
  · exact not_nul_of_mem_cstr hc
  · split at hc
    · rw [List.mem_singleton] at hc
      exact hc ▸ nul_ne_dot.symm
    · simp at hc

theorem length_new_suffix_le (l : List Char) (n : Nat) :
    n * 3 + (new_suffix l n).length + 1 ≤ n * 3 + strlen l + 2 := by
  unfold new_suffix
  split
  · rw [strlen_eq_length_cstr]; omega
  · split
    · simp
    · simp only [List.length_nil]; omega

theorem deref_append_of_ne_nil (a b : List Char) (h : a ≠ []) : deref (a ++ b) = deref a := by
  cases a with
  | nil => exact absurd rfl h
  | cons c a => rfl

theorem deref_cstr_of_strlen_ne (l : List Char) (h : strlen l ≠ 0) :
    cstr l ≠ [] ∧ deref (cstr l) = deref l := by
  cases l with
  | nil => exact absurd rfl h
  | cons c l =>
    by_cases hc : c = NUL
    · simp [strlen, hc] at h
    · simp [cstr, hc, deref]

/-- The rewritten target does not begin with a separator. -/
theorem deref_new_target (l rest : List Char) (n : Nat) (hl : deref l ≠ '/') :
    deref (dotdot_blocks n ++ (new_suffix l n ++ NUL :: rest)) ≠ '/' := by
  cases n with
  | succ n => simp [dotdot_blocks, deref]
  | zero =>
    simp only [dotdot_blocks, List.nil_append, new_suffix]
    by_cases h : strlen l ≠ 0
    · rw [if_pos h, deref_append_of_ne_nil _ _ (deref_cstr_of_strlen_ne l h).1,
        (deref_cstr_of_strlen_ne l h).2]
      exact hl
    · rw [if_neg h]
      simp [deref]

theorem cstr_new_target (l rest : List Char) (n : Nat) :
    cstr (dotdot_blocks n ++ (new_suffix l n ++ NUL :: rest)) =
      dotdot_blocks n ++ new_suffix l n := by
  rw [← List.append_assoc]
  apply cstr_append_nul
  intro c hc
  rcases List.mem_append.1 hc with hc | hc
  · exact not_nul_of_mem_dotdot_blocks n c hc
  · exact not_nul_of_mem_new_suffix l n c hc

/-- The function `transform_symlink` changes the buffer exactly when all its guards
are passed. -/
theorem transform_symlink_ne_iff {σ : Type} (d : subdir σ) (path buf : List Char)
    (size : Nat) :
    transform_symlink d path buf size ≠ buf ↔
      (deref buf = '/' ∧ deref d.base = '/' ∧
        d.baselen ≤ buf.length - (strip_common buf path).1.length ∧
        count_components (strip_common buf path).2 ≠ 0 ∧
        (count_components (strip_common buf path).2 - 1) * 3 +
          strlen (strip_common buf path).1 + 2 ≤ size) := by
  rw [transform_symlink_eq]
  constructor
  · intro h
    by_contra hg
    rw [if_neg hg] at h
    exact h rfl
  · intro hg
    rw [if_pos hg]
    intro he
    have h1 := deref_new_target (strip_common buf path).1
      (buf.drop ((count_components (strip_common buf path).2 - 1) * 3 +
        (new_suffix (strip_common buf path).1
          (count_components (strip_common buf path).2 - 1)).length + 1))
      (count_components (strip_common buf path).2 - 1) (deref_strip_common_fst buf path)
    rw [he] at h1
    exact h1 hg.1

/-- The string left in the buffer by a rewrite. -/
theorem cstr_transform_symlink {σ : Type} (d : subdir σ) (path buf : List Char) (size : Nat)
    (h : transform_symlink d path buf size ≠ buf) :
    cstr (transform_symlink d path buf size) =
      dotdot_blocks (count_components (strip_common buf path).2 - 1) ++
        new_suffix (strip_common buf path).1
          (count_components (strip_common buf path).2 - 1) := by
  have hg := (transform_symlink_ne_iff d path buf size).1 h
  rw [transform_symlink_eq, if_pos hg, cstr_new_target]

/-- A string and its terminator stored at the head of a buffer that has room for
them: the length is kept, the terminator is in place, and the bytes from `size` on
are not touched. -/
theorem overwrite_head_facts (X buf : List Char) (size : Nat) (h1 : X.length + 1 ≤ size)
    (h2 : size ≤ buf.length) :
    (X ++ NUL :: buf.drop (X.length + 1)).length = buf.length ∧
    (X ++ NUL :: buf.drop (X.length + 1))[X.length]? = some NUL ∧
    (X ++ NUL :: buf.drop (X.length + 1)).drop size = buf.drop size := by
  refine ⟨?_, ?_, ?_⟩
  · simp only [List.length_append, List.length_cons, List.length_drop]
    omega
  · rw [List.getElem?_append_right (le_refl _)]
    simp
  · obtain ⟨k, rfl⟩ : ∃ k, size = (X ++ [NUL]).length + k :=
      ⟨size - (X.length + 1), by simp only [List.length_append, List.length_singleton]; omega⟩
    have e : X ++ NUL :: buf.drop (X.length + 1) = (X ++ [NUL]) ++ buf.drop (X.length + 1) := by
      simp
    rw [e, List.drop_append, List.drop_drop]
    congr 1
    simp

theorem strlen_eq_zero_iff (l : List Char) : strlen l = 0 ↔ cstr l = [] := by
  rw [strlen_eq_length_cstr, List.length_eq_zero]

/-! ## Resolution of the rewritten target -/

theorem segments_from_cstr (cur p : List Char) :
    segments_from cur (cstr p) = segments_from cur p := by
  induction p generalizing cur with
  | nil => rfl
  | cons c p ih =>
    by_cases h : c = NUL
    · simp [cstr, segments_from, h]
    · by_cases h2 : c = '/'
      · simp only [cstr, if_neg h, segments_from, if_pos h2, ih]
      · simp only [cstr, if_neg h, segments_from, if_neg h2, ih]

theorem segments_cstr (p : List Char) : segments (cstr p) = segments p :=
  segments_from_cstr [] p

/-- Each `../` block is one `..` segment. -/
theorem segments_dotdot_blocks (n : Nat) (x : List Char) :
    segments (dotdot_blocks n ++ x) = List.replicate n ['.', '.'] ++ segments x := by
  induction n with
  | zero => rfl
  | succ n ih =>
    have e : dotdot_blocks (n + 1) ++ x = ['.', '.'] ++ '/' :: (dotdot_blocks n ++ x) := rfl
    rw [e, segments_clean_append ['.', '.'] ('/' :: (dotdot_blocks n ++ x)) (by decide)
        (by decide) (Or.inr (deref_cons _ _)),
      segments_slash_cons, ih, List.replicate_succ]
    rfl

theorem segments_new_suffix (l : List Char) (n : Nat) :
    segments (new_suffix l n) =
      if strlen l ≠ 0 then segments l else if n = 0 then [['.']] else [] := by
  unfold new_suffix
  split
  · exact segments_cstr l
  · split <;> rfl

/-- Climbing as many times as there are segments after `C` leads back to `C`. -/
theorem foldl_resolve_step_dotdots (n : Nat) (C Q : List (List Char)) (hQ : Q.length = n) :
    (List.replicate n ['.', '.']).foldl resolve_step (C ++ Q) = C := by
  induction n generalizing Q with
  | zero =>
    rw [List.length_eq_zero.1 hQ]
    simp
  | succ n ih =>
    have hne : Q ≠ [] := by
      intro h
      rw [h] at hQ
      simp at hQ
    rw [List.replicate_succ, List.foldl_cons]
    have e : resolve_step (C ++ Q) ['.', '.'] = C ++ Q.dropLast := by
      rw [resolve_step, if_pos rfl, List.dropLast_append_of_ne_nil _ hne]
    rw [e]
    apply ih
    rw [List.length_dropLast, hQ]
    rfl

/-- Segments other than `.` and `..` are entered one after the other. -/
theorem foldl_resolve_step_plain (S D : List (List Char))
    (hS : ∀ seg ∈ S, seg ≠ ['.'] ∧ seg ≠ ['.', '.']) :
    S.foldl resolve_step D = D ++ S := by
  induction S generalizing D with
  | nil => simp
  | cons a S ih =>
    have ha := hS a (List.mem_cons_self _ _)
    rw [List.foldl_cons, resolve_step, if_neg ha.2, if_neg ha.1,
      ih _ (fun seg hseg => hS seg (List.mem_cons_of_mem _ hseg))]
    simp

/-! ## Offsets in a target without repeated separators -/

theorem single_slashes_tail (c : Char) (p : List Char) (hc : c ≠ NUL)
    (h : single_slashes (c :: p) = true) : single_slashes p = true := by
  rw [single_slashes, if_neg hc] at h
  by_cases h2 : c = '/' ∧ deref p = '/'
  · rw [if_pos h2] at h
    cases h
  · rw [if_neg h2] at h
    exact h

theorem single_slashes_of_append (pre r : List Char) (hpre : ∀ c ∈ pre, c ≠ NUL)
    (h : single_slashes (pre ++ r) = true) : single_slashes r = true := by
  induction pre with
  | nil => exact h
  | cons a pre ih =>
    exact ih (fun c hc => hpre c (List.mem_cons_of_mem _ hc))
      (single_slashes_tail a _ (hpre a (List.mem_cons_self _ _)) h)

/-- In a string without repeated separators `skip_slashes` passes over at most one byte. -/
theorem length_le_skip_slashes_succ (p : List Char) (h : single_slashes p = true) :
    p.length ≤ (skip_slashes p).length + 1 := by
  cases p with
  | nil => simp [skip_slashes]
  | cons c p =>
    by_cases hc : c = '/'
    · subst hc
      rw [single_slashes, if_neg nul_ne_slash.symm] at h
      by_cases h2 : deref p = '/'
      · rw [if_pos ⟨rfl, h2⟩] at h
        cases h
      · have e : skip_slashes ('/' :: p) = p := by
          rw [skip_slashes, if_pos rfl, skip_slashes_of_deref_ne p h2]
        rw [e, List.length_cons]
    · have e : skip_slashes (c :: p) = c :: p := by
        rw [skip_slashes, if_neg hc]
      rw [e]
      omega

/-- When the first string has no repeated separators, what `strip_common` removes
from it is no longer than the common segments, a separator after each, and the
leading separator. -/
theorem strip_common_offset (s t : List Char) (h : single_slashes s = true) :
    ∃ C, segments s = C ++ segments (strip_common s t).1 ∧
      segments t = C ++ segments (strip_common s t).2 ∧
      s.length ≤ (strip_common s t).1.length + segments_width C + 1 := by
  refine strip_common_induction
    (fun s t r => single_slashes s = true →
      ∃ C, segments s = C ++ segments r.1 ∧ segments t = C ++ segments r.2 ∧
        s.length ≤ r.1.length + segments_width C + 1) ?_ ?_ s t h
  · intro s t _ hs
    exact ⟨[], by simp [segments_skip_slashes], by simp [segments_skip_slashes],
      length_le_skip_slashes_succ s hs⟩
  · intro s t r hc ih hs
    obtain ⟨w, hne, h1, h2, hclean⟩ := match_segment_progress _ _ (deref_skip_slashes s)
      (deref_skip_slashes t) hc
    obtain ⟨b1, b2, _⟩ := continue_after_match _ _ hc
    obtain ⟨k, hk⟩ := skip_slashes_split s
    have hs1 : single_slashes (skip_slashes s) = true := by
      apply single_slashes_of_append (List.replicate k '/') _
        (not_nul_of_mem_replicate_slash k)
      rw [← hk]
      exact hs
    have hs2 : single_slashes (match_segment (skip_slashes s) (skip_slashes t)).1 = true := by
      apply single_slashes_of_append w _ (fun c hc => (hclean c hc).1)
      rw [← h1]
      exact hs1
    obtain ⟨C, hC1, hC2, hC3⟩ := ih hs2
    refine ⟨w :: C, ?_, ?_, ?_⟩
    · rw [← segments_skip_slashes s, List.cons_append, ← hC1]
      conv_lhs => rw [h1]
      exact segments_clean_append w _ hclean hne b1.symm
    · rw [← segments_skip_slashes t, List.cons_append, ← hC2]
      conv_lhs => rw [h2]
      exact segments_clean_append w _ hclean hne b2.symm
    · have l1 := length_le_skip_slashes_succ s hs
      have l2 := congrArg List.length h1
      rw [List.length_append] at l2
      rw [segments_width]
      omega

theorem segments_width_append (A B : List (List Char)) :
    segments_width (A ++ B) = segments_width A + segments_width B := by
  induction A with
  | nil => simp [segments_width]
  | cons a A ih =>
    rw [List.cons_append, segments_width, segments_width, ih]
    omega

theorem getLast?_cons_of_ne (c : Char) (x : List Char) (h : (c :: x).getLast? = some '/')
    (hc : c ≠ '/') : x ≠ [] ∧ x.getLast? = some '/' := by
  cases x with
  | nil => simp at h; exact absurd h hc
  | cons a x => exact ⟨by simp, by simpa [List.getLast?_cons_cons] using h⟩

/-- In a string that ends with a separator every segment is followed by one. -/
theorem segments_width_from_le (cur p : List Char) (h : (cstr p).getLast? = some '/') :
    segments_width (segments_from cur p) ≤ cur.length + strlen p := by
  induction p generalizing cur with
  | nil => simp [cstr] at h
  | cons c p ih =>
    by_cases hc : c = NUL
    · simp [cstr, hc] at h
    · rw [cstr, if_neg hc] at h
      rw [strlen, if_neg hc, segments_from, if_neg hc]
      by_cases h2 : c = '/'
      · rw [if_pos h2]
        have hrest : segments_width (segments_from [] p) ≤ strlen p := by
          by_cases he : cstr p = []
          · have : segments_from [] p = [] :=
              segments_of_deref_nul p ((deref_eq_nul_iff p).2 he)
            rw [this]
            simp [segments_width]
          · have hl : (cstr p).getLast? = some '/' := by
              cases hcp : cstr p with
              | nil => exact absurd hcp he
              | cons a x =>
                rw [hcp, List.getLast?_cons_cons] at h
                exact h
            simpa using ih [] hl
        by_cases hcur : cur = []
        · rw [if_pos hcur]
          omega
        · rw [if_neg hcur, segments_width]
          omega
      · rw [if_neg h2]
        have hl := (getLast?_cons_of_ne c (cstr p) h h2).2
        have := ih (cur ++ [c]) hl
        rw [List.length_append, List.length_singleton] at this
        omega

theorem segments_width_le_strlen (p : List Char) (h : (cstr p).getLast? = some '/') :
    segments_width (segments p) ≤ strlen p := by
  simpa using segments_width_from_le [] p h

/-- After a string that ends with a separator a new segment starts. -/
theorem segments_from_append (cur b rest : List Char) (hb : ∀ c ∈ b, c ≠ NUL)
    (h : b.getLast? = some '/') :
    segments_from cur (b ++ rest) = segments_from cur b ++ segments rest := by
  induction b generalizing cur with
  | nil => simp at h
  | cons c b ih =>
    have hc : c ≠ NUL := hb c (List.mem_cons_self _ _)
    have hb2 : ∀ x ∈ b, x ≠ NUL := fun x hx => hb x (List.mem_cons_of_mem _ hx)
    rw [List.cons_append, segments_from, if_neg hc, segments_from, if_neg hc]
    by_cases h2 : c = '/'
    · rw [if_pos h2, if_pos h2]
      have hrest : segments_from [] (b ++ rest) = segments_from [] b ++ segments rest := by
        cases b with
        | nil => rfl
        | cons a x =>
          rw [List.getLast?_cons_cons] at h
          exact ih [] hb2 h
      rw [hrest]
      by_cases hcur : cur = []
      · rw [if_pos hcur, if_pos hcur]
      · rw [if_neg hcur, if_neg hcur]
        rfl
    · rw [if_neg h2, if_neg h2]
      exact ih _ hb2 (getLast?_cons_of_ne c b h h2).2

theorem segments_ne_nil_of_mem_from (cur p : List Char) :
    ∀ seg ∈ segments_from cur p, seg ≠ [] := by
  induction p generalizing cur with
  | nil =>
    intro seg hseg
    rw [segments_from] at hseg
    by_cases hcur : cur = []
    · simp [hcur] at hseg
    · rw [if_neg hcur, List.mem_singleton] at hseg
      exact hseg ▸ hcur
  | cons c p ih =>
    intro seg hseg
    rw [segments_from] at hseg
    by_cases hc : c = NUL
    · rw [if_pos hc] at hseg
      by_cases hcur : cur = []
      · simp [hcur] at hseg
      · rw [if_neg hcur, List.mem_singleton] at hseg
        exact hseg ▸ hcur
    · rw [if_neg hc] at hseg
      by_cases h2 : c = '/'
      · rw [if_pos h2] at hseg
        by_cases hcur : cur = []
        · rw [if_pos hcur] at hseg
          exact ih [] seg hseg
        · rw [if_neg hcur, List.mem_cons] at hseg
          rcases hseg with hseg | hseg
          · exact hseg ▸ hcur
          · exact ih [] seg hseg
      · rw [if_neg h2] at hseg
        exact ih _ seg hseg

/-- The escape check of `transform_symlink` refuses every target without repeated
separators whose leading segments are not those of the base. -/
theorem escape_check_refuses {σ : Type} (d : subdir σ) (path buf rest : List Char)
    (hlen : d.baselen = strlen d.base) (hslash : (cstr d.base).getLast? = some '/')
    (hP : cstr path = cstr d.base ++ rest) (hnorm : single_slashes buf = true)
    (hout : ¬ (segments d.base <+: segments buf)) :
    buf.length - (strip_common buf path).1.length < d.baselen := by
  obtain ⟨C, hC1, hC2, hC3⟩ := strip_common_offset buf path hnorm
  have hpath : segments path = segments d.base ++ segments rest := by
    rw [← segments_cstr path, hP, segments, segments_from_append [] _ rest
      (fun c hc => not_nul_of_mem_cstr hc) hslash]
    rw [← segments, segments_cstr]
  have hp1 : C <+: segments path := ⟨_, hC2.symm⟩
  have hp2 : segments d.base <+: segments path := ⟨_, hpath.symm⟩
  have hp3 : C <+: segments buf := ⟨_, hC1.symm⟩
  rcases List.prefix_or_prefix_of_prefix hp1 hp2 with hpre | hpre
  · obtain ⟨B, hB⟩ := hpre
    have hBne : B ≠ [] := by
      rintro rfl
      rw [List.append_nil] at hB
      exact hout (hB ▸ hp3)
    obtain ⟨b, B2, rfl⟩ := List.exists_cons_of_ne_nil hBne
    have hw := segments_width_le_strlen d.base hslash
    have hb : b ≠ [] := by
      apply segments_ne_nil_of_mem_from [] d.base
      rw [← segments, ← hB]
      simp
    have hb1 : 0 < b.length := List.length_pos.2 hb
    rw [← hB, segments_width_append, segments_width] at hw
    omega
  · exact absurd (hpre.trans hp3) hout

/-! ## Where `strip_common` stops -/

theorem segment_at_cons_pos (c : Char) (p : List Char) (h : c ≠ NUL ∧ c ≠ '/') :
    segment_at (c :: p) = c :: segment_at p := by
  rw [segment_at, if_pos h]

theorem segment_at_cons_neg (c : Char) (p : List Char) (h : ¬ (c ≠ NUL ∧ c ≠ '/')) :
    segment_at (c :: p) = [] := by
  rw [segment_at, if_neg h]

theorem segment_at_clean_append (w r : List Char) (hw : ∀ c ∈ w, c ≠ NUL ∧ c ≠ '/') :
    segment_at (w ++ r) = w ++ segment_at r := by
  induction w with
  | nil => rfl
  | cons a w ih =>
    rw [List.cons_append, segment_at_cons_pos _ _ (hw a (List.mem_cons_self _ _)),
      ih (fun c hc => hw c (List.mem_cons_of_mem _ hc)), List.cons_append]

theorem segment_at_eq_nil_iff (p : List Char) :
    segment_at p = [] ↔ (deref p = NUL ∨ deref p = '/') := by
  cases p with
  | nil => simp [segment_at, deref]
  | cons c p =>
    rw [deref_cons]
    by_cases h : c ≠ NUL ∧ c ≠ '/'
    · rw [segment_at_cons_pos c p h]
      simp [h.1, h.2]
    · rw [segment_at_cons_neg c p h]
      simp only [true_iff]
      by_cases h1 : c = NUL
      · exact Or.inl h1
      · right
        by_contra h2
        exact h ⟨h1, h2⟩

theorem deref_of_segment_at_cons (p : List Char) (c : Char) (r : List Char)
    (h : segment_at p = c :: r) : deref p = c ∧ c ≠ NUL ∧ c ≠ '/' := by
  cases p with
  | nil => simp [segment_at] at h
  | cons a p =>
    by_cases ha : a ≠ NUL ∧ a ≠ '/'
    · rw [segment_at_cons_pos a p ha] at h
      have hac : a = c := (List.cons.inj h).1
      rw [deref_cons, ← hac]
      exact ⟨rfl, ha⟩
    · rw [segment_at_cons_neg a p ha] at h
      cases h

/-- The first segment read with the open segment `cur` is `cur` followed by the
segment that starts at `p`, when there is anything in the two. -/
theorem head?_segments_from (cur p : List Char) (h : cur ++ segment_at p ≠ []) :
    (segments_from cur p).head? = some (cur ++ segment_at p) := by
  induction p generalizing cur with
  | nil =>
    have hc : cur ≠ [] := by simpa [segment_at] using h
    simp [segments_from, segment_at, hc]
  | cons c p ih =>
    by_cases hc : c ≠ NUL ∧ c ≠ '/'
    · rw [segments_from, if_neg hc.1, if_neg hc.2, segment_at_cons_pos c p hc,
        ih (cur ++ [c]) (by simp)]
      simp
    · rw [segment_at_cons_neg c p hc, List.append_nil] at h ⊢
      rw [segments_from]
      by_cases h1 : c = NUL
      · rw [if_pos h1, if_neg h]
        rfl
      · have h2 : c = '/' := by
          by_contra h2
          exact hc ⟨h1, h2⟩
        rw [if_neg h1, if_pos h2, if_neg h]
        rfl

theorem head?_segments (p : List Char) (h : segment_at p ≠ []) :
    (segments p).head? = some (segment_at p) := by
  have := head?_segments_from [] p (by simpa using h)
  simpa [segments] using this

theorem segments_eq_nil_of_segment_at (p : List Char) (h : segment_at p = [])
    (hp : deref p ≠ '/') : segments p = [] := by
  rcases (segment_at_eq_nil_iff p).1 h with h1 | h1
  · exact segments_of_deref_nul p h1
  · exact absurd h1 hp

/-- Where the loop of `strip_common` exits: one of the two remainders has no segment,
or their first segments differ, or both strings end after one common last segment,
which is then the whole of both remainders. -/
theorem strip_common_maximal (s t : List Char) :
    segments (strip_common s t).1 = [] ∨ segments (strip_common s t).2 = [] ∨
    (segments (strip_common s t).1).head? ≠ (segments (strip_common s t).2).head? ∨
    (∃ w, w ≠ [] ∧ cstr (strip_common s t).1 = w ∧ cstr (strip_common s t).2 = w ∧
      segments (strip_common s t).1 = [w] ∧ segments (strip_common s t).2 = [w]) := by
  refine strip_common_induction
    (fun _ _ r => segments r.1 = [] ∨ segments r.2 = [] ∨
      (segments r.1).head? ≠ (segments r.2).head? ∨
      (∃ w, w ≠ [] ∧ cstr r.1 = w ∧ cstr r.2 = w ∧ segments r.1 = [w] ∧ segments r.2 = [w]))
    ?_ (fun _ _ _ _ h => h) s t
  intro s t hc
  obtain ⟨w, h1, h2, hclean, hstop⟩ := match_segment_split (skip_slashes s) (skip_slashes t)
  have hs1 := deref_skip_slashes s
  have ht1 := deref_skip_slashes t
  generalize skip_slashes s = s1 at *
  generalize skip_slashes t = t1 at *
  generalize (match_segment s1 t1).1 = s2 at *
  generalize (match_segment s1 t1).2 = t2 at *
  have hcont : ¬ ((deref s2 = deref t2 ∧ deref s2 ≠ NUL) ∨ (deref s2 = NUL ∧ deref t2 = '/')
      ∨ (deref s2 = '/' ∧ deref t2 = NUL)) := by
    intro h
    rw [← strip_common_continue_iff, hc] at h
    cases h
  have es : segment_at s1 = w ++ segment_at s2 := by
    conv_lhs => rw [h1]
    exact segment_at_clean_append w s2 hclean
  have et : segment_at t1 = w ++ segment_at t2 := by
    conv_lhs => rw [h2]
    exact segment_at_clean_append w t2 hclean
  show segments s1 = [] ∨ segments t1 = [] ∨ (segments s1).head? ≠ (segments t1).head? ∨
    (∃ w, w ≠ [] ∧ cstr s1 = w ∧ cstr t1 = w ∧ segments s1 = [w] ∧ segments t1 = [w])
  by_cases hs0 : segment_at s1 = []
  · exact Or.inl (segments_eq_nil_of_segment_at s1 hs0 hs1)
  by_cases ht0 : segment_at t1 = []
  · exact Or.inr (Or.inl (segments_eq_nil_of_segment_at t1 ht0 ht1))
  by_cases hne : segment_at s2 = segment_at t2
  · -- the two segments agree: both strings end here
    have hnil : segment_at s2 = [] := by
      cases hsa : segment_at s2 with
      | nil => rfl
      | cons c r =>
        have d1 := deref_of_segment_at_cons s2 c r hsa
        have d2 := deref_of_segment_at_cons t2 c r (hne ▸ hsa)
        exact absurd ⟨d1.1.trans d2.1.symm, d1.1 ▸ d1.2.1, d1.1 ▸ d1.2.2⟩ hstop
    have hnil2 : segment_at t2 = [] := hne ▸ hnil
    have bs := (segment_at_eq_nil_iff s2).1 hnil
    have bt := (segment_at_eq_nil_iff t2).1 hnil2
    have hsn : deref s2 = NUL := by
      rcases bs with bs | bs
      · exact bs
      · rcases bt with bt | bt
        · exact absurd (Or.inr (Or.inr ⟨bs, bt⟩)) hcont
        · exact absurd (Or.inl ⟨bs.trans bt.symm, bs ▸ nul_ne_slash.symm⟩) hcont
    have htn : deref t2 = NUL := by
      rcases bt with bt | bt
      · exact bt
      · exact absurd (Or.inr (Or.inl ⟨hsn, bt⟩)) hcont
    have hw : w ≠ [] := by
      intro h0
      rw [es, h0, hnil] at hs0
      exact hs0 rfl
    right; right; right
    refine ⟨w, hw, ?_, ?_, ?_, ?_⟩
    · rw [h1, cstr_append w s2 (fun c hc => (hclean c hc).1), (deref_eq_nul_iff s2).1 hsn,
        List.append_nil]
    · rw [h2, cstr_append w t2 (fun c hc => (hclean c hc).1), (deref_eq_nul_iff t2).1 htn,
        List.append_nil]
    · rw [h1, segments_clean_append w s2 hclean hw (Or.inl hsn),
        segments_of_deref_nul s2 hsn]
    · rw [h2, segments_clean_append w t2 hclean hw (Or.inl htn),
        segments_of_deref_nul t2 htn]
  · right; right; left
    rw [head?_segments s1 hs0, head?_segments t1 ht0, es, et]
    intro h
    exact hne (List.append_cancel_left (Option.some.inj h))

/-! ## The parts `strip_common` removes -/

/-- The first result of `strip_common` starts at a segment boundary of the first
string: at its start, after a separator, or on its terminator. -/
theorem strip_common_fst_boundary (s t : List Char) :
    ∃ pre, s = pre ++ (strip_common s t).1 ∧ (∀ c ∈ pre, c ≠ NUL) ∧
      (pre = [] ∨ pre.getLast? = some '/' ∨ deref (strip_common s t).1 = NUL) := by
  have key := strip_common_induction
    (fun s t r => deref r.1 ≠ '/' ∧ ∃ pre, s = pre ++ r.1 ∧ (∀ c ∈ pre, c ≠ NUL) ∧
      (pre = [] ∨ pre.getLast? = some '/' ∨ deref r.1 = NUL)) ?_ ?_ s t
  · exact key.2
  · intro s t _
    refine ⟨deref_skip_slashes s, ?_⟩
    obtain ⟨k, hk⟩ := skip_slashes_split s
    refine ⟨_, hk, not_nul_of_mem_replicate_slash k, ?_⟩
    cases k with
    | zero => exact Or.inl rfl
    | succ k =>
      right; left
      rw [List.replicate_succ', List.getLast?_append]
      rfl
  · intro s t r hc ⟨hd, pre, hpre, hnn, hb⟩
    refine ⟨hd, ?_⟩
    obtain ⟨k, hk⟩ := skip_slashes_split s
    obtain ⟨w, _, h1, h2, hclean⟩ := match_segment_progress _ _ (deref_skip_slashes s)
      (deref_skip_slashes t) hc
    obtain ⟨b1, b2, _⟩ := continue_after_match _ _ hc
    refine ⟨List.replicate k '/' ++ (w ++ pre), ?_, ?_, ?_⟩
    · conv_lhs => rw [hk, h1, hpre]
      simp
    · intro c hc
      rcases List.mem_append.1 hc with hc | hc
      · exact not_nul_of_mem_replicate_slash k c hc
      · rcases List.mem_append.1 hc with hc | hc
        · exact (hclean c hc).1
        · exact hnn c hc
    · rcases hb with hb | hb | hb
      · subst hb
        rw [List.nil_append] at hpre
        right; right
        rcases b1 with b | b
        · rw [hpre] at b
          exact absurd b hd
        · rw [hpre] at b
          exact b
      · right; left
        have hne : pre ≠ [] := by
          rintro rfl
          simp at hb
        rw [← List.append_assoc, List.getLast?_append_of_ne_nil _ hne]
        exact hb
      · exact Or.inr (Or.inr hb)

/-- The second result of `strip_common` starts at a segment boundary of the second
string: at its start, after a separator, or on its terminator. -/
theorem strip_common_snd_boundary (s t : List Char) :
    ∃ pre, t = pre ++ (strip_common s t).2 ∧ (∀ c ∈ pre, c ≠ NUL) ∧
      (pre = [] ∨ pre.getLast? = some '/' ∨ deref (strip_common s t).2 = NUL) := by
  have key := strip_common_induction
    (fun s t r => deref r.2 ≠ '/' ∧ ∃ pre, t = pre ++ r.2 ∧ (∀ c ∈ pre, c ≠ NUL) ∧
      (pre = [] ∨ pre.getLast? = some '/' ∨ deref r.2 = NUL)) ?_ ?_ s t
  · exact key.2
  · intro s t _
    refine ⟨deref_skip_slashes t, ?_⟩
    obtain ⟨k, hk⟩ := skip_slashes_split t
    refine ⟨_, hk, not_nul_of_mem_replicate_slash k, ?_⟩
    cases k with
    | zero => exact Or.inl rfl
    | succ k =>
      right; left
      rw [List.replicate_succ', List.getLast?_append]
      rfl
  · intro s t r hc ⟨hd, pre, hpre, hnn, hb⟩
    refine ⟨hd, ?_⟩
    obtain ⟨k, hk⟩ := skip_slashes_split t
    obtain ⟨w, _, h1, h2, hclean⟩ := match_segment_progress _ _ (deref_skip_slashes s)
      (deref_skip_slashes t) hc
    obtain ⟨b1, b2, _⟩ := continue_after_match _ _ hc
    refine ⟨List.replicate k '/' ++ (w ++ pre), ?_, ?_, ?_⟩
    · conv_lhs => rw [hk, h2, hpre]
      simp
    · intro c hc
      rcases List.mem_append.1 hc with hc | hc
      · exact not_nul_of_mem_replicate_slash k c hc
      · rcases List.mem_append.1 hc with hc | hc
        · exact (hclean c hc).1
        · exact hnn c hc
    · rcases hb with hb | hb | hb
      · subst hb
        rw [List.nil_append] at hpre
        right; right
        rcases b2 with b | b
        · rw [hpre] at b
          exact absurd b hd
        · rw [hpre] at b
          exact b
      · right; left
        have hne : pre ≠ [] := by
          rintro rfl
          simp at hb
        rw [← List.append_assoc, List.getLast?_append_of_ne_nil _ hne]
        exact hb
      · exact Or.inr (Or.inr hb)

theorem segments_from_append_of_deref_nul (cur pre l : List Char) (hpre : ∀ c ∈ pre, c ≠ NUL)
    (hl : deref l = NUL) : segments_from cur (pre ++ l) = segments_from cur pre := by
  induction pre generalizing cur with
  | nil =>
    rw [List.nil_append, segments_from_boundary cur l (Or.inl hl),
      segments_of_deref_nul l hl, List.append_nil]
    rfl
  | cons c pre ih =>
    have hc : c ≠ NUL := hpre c (List.mem_cons_self _ _)
    have hp2 : ∀ x ∈ pre, x ≠ NUL := fun x hx => hpre x (List.mem_cons_of_mem _ hx)
    rw [List.cons_append, segments_from, segments_from, if_neg hc, if_neg hc]
    by_cases h2 : c = '/'
    · rw [if_pos h2, if_pos h2, ih [] hp2]
    · rw [if_neg h2, if_neg h2, ih _ hp2]

/-- A string cut at a segment boundary has the segments of the two parts. -/
theorem segments_append_of_boundary (pre l : List Char) (hpre : ∀ c ∈ pre, c ≠ NUL)
    (hb : pre = [] ∨ pre.getLast? = some '/' ∨ deref l = NUL) :
    segments (pre ++ l) = segments pre ++ segments l := by
  rcases hb with hb | hb | hb
  · subst hb
    rfl
  · exact segments_from_append [] pre l hpre hb
  · rw [segments, segments_from_append_of_deref_nul [] pre l hpre hb,
      segments_of_deref_nul l hb, List.append_nil]
    rfl

/-! ## A link to its own directory -/

theorem segments_from_append_slash (cur D : List Char) (hD : ∀ c ∈ D, c ≠ NUL) :
    segments_from cur (D ++ ['/']) = segments_from cur D := by
  induction D generalizing cur with
  | nil =>
    by_cases hc : cur = []
    · simp [segments_from, hc, nul_ne_slash.symm]
    · simp [segments_from, hc, nul_ne_slash.symm]
  | cons c D ih =>
    have hc : c ≠ NUL := hD c (List.mem_cons_self _ _)
    have hD2 : ∀ x ∈ D, x ≠ NUL := fun x hx => hD x (List.mem_cons_of_mem _ hx)
    rw [List.cons_append, segments_from, segments_from, if_neg hc, if_neg hc]
    by_cases h2 : c = '/'
    · rw [if_pos h2, if_pos h2, ih [] hD2]
    · rw [if_neg h2, if_neg h2, ih _ hD2]

theorem segments_append_slash (D : List Char) (hD : ∀ c ∈ D, c ≠ NUL) :
    segments (D ++ ['/']) = segments D :=
  segments_from_append_slash [] D hD

theorem segments_append_name (D name : List Char) (hD : ∀ c ∈ D, c ≠ NUL)
    (hne : name ≠ []) (hname : ∀ c ∈ name, c ≠ NUL ∧ c ≠ '/') :
    segments (D ++ '/' :: name) = segments D ++ [name] := by
  have e : D ++ '/' :: name = (D ++ ['/']) ++ name := by simp
  have hD2 : ∀ c ∈ D ++ ['/'], c ≠ NUL := by
    intro c hc
    rcases List.mem_append.1 hc with hc | hc
    · exact hD c hc
    · rw [List.mem_singleton] at hc
      exact hc ▸ nul_ne_slash.symm
  have hn : segments name = [name] := by
    have := segments_clean_append name [] hname hne (Or.inl rfl)
    simpa [segments, segments_from] using this
  rw [e, segments, segments_from_append [] _ name hD2 (by simp), ← segments,
    segments_append_slash D hD, hn]

theorem deref_eq_nul_of_segments_nil (l : List Char) (h : segments l = [])
    (hl : deref l ≠ '/') : deref l = NUL := by
  by_contra hn
  have hs : segment_at l ≠ [] := by
    intro h0
    rcases (segment_at_eq_nil_iff l).1 h0 with h1 | h1
    · exact hn h1
    · exact hl h1
  have := head?_segments l hs
  rw [h] at this
  cases this

/-- When the segments of the link path are those of the target followed by one more,
`strip_common` consumes the whole target and leaves that one segment of the path. -/
theorem strip_common_of_child (buf path name : List Char)
    (h : segments path = segments buf ++ [name]) :
    deref (strip_common buf path).1 = NUL ∧ segments (strip_common buf path).2 = [name] ∧
      buf.length - (strip_common buf path).1.length = strlen buf := by
  obtain ⟨C, hC1, hC2⟩ := strip_common_segments buf path
  have hp : segments (strip_common buf path).2 = segments (strip_common buf path).1 ++ [name] := by
    have e : C ++ segments (strip_common buf path).2 =
        C ++ (segments (strip_common buf path).1 ++ [name]) := by
      rw [← hC2, h, hC1, List.append_assoc]
    exact List.append_cancel_left e
  have hl : segments (strip_common buf path).1 = [] := by
    rcases strip_common_maximal buf path with hm | hm | hm | ⟨w, _, _, _, hm1, hm2⟩
    · exact hm
    · rw [hm] at hp
      simp at hp
    · by_contra hne
      apply hm
      rw [hp]
      cases hsl : segments (strip_common buf path).1 with
      | nil => exact absurd hsl hne
      | cons a A => rfl
    · rw [hm1, hm2] at hp
      simp at hp
  have hd := deref_eq_nul_of_segments_nil _ hl (deref_strip_common_fst buf path)
  refine ⟨hd, by rw [hp, hl]; rfl, ?_⟩
  obtain ⟨pre, hpre, hnn⟩ := strip_common_fst_suffix buf path
  have h1 : strlen buf = pre.length := by
    conv_lhs => rw [hpre]
    rw [strlen_eq_length_cstr, cstr_append pre _ hnn, (deref_eq_nul_iff _).1 hd,
      List.append_nil]
  have h2 := congrArg List.length hpre
  rw [List.length_append] at h2
  omega

/-! ## Options and the normalised base -/

theorem cstr_strcat (dst src : List Char) : cstr (strcat dst src) = cstr dst ++ cstr src := by
  rw [strcat, cstr_strcpy _ _ _ (le_refl _), strlen_eq_length_cstr, List.take_length]

/-- The byte before the terminator is the last byte of the string. -/
theorem deref_drop_strlen_pred (base : List Char) (h : cstr base ≠ []) :
    (cstr base).getLast? = some (deref (base.drop (strlen base - 1))) := by
  induction base with
  | nil => exact absurd rfl h
  | cons c p ih =>
    by_cases hc : c = NUL
    · simp [cstr, hc] at h
    · rw [cstr, if_neg hc, strlen, if_neg hc]
      by_cases hp : cstr p = []
      · have h0 : strlen p = 0 := (strlen_eq_zero_iff p).2 hp
        rw [hp, h0]
        rfl
      · have hpos : strlen p ≠ 0 := fun h0 => hp ((strlen_eq_zero_iff p).1 h0)
        obtain ⟨m, hm⟩ : ∃ m, strlen p = m + 1 := ⟨strlen p - 1, by omega⟩
        have e : (c :: p).drop (strlen p + 1 - 1) = p.drop (strlen p - 1) := by
          rw [hm]
          rfl
        rw [e, ← ih hp]
        cases hcp : cstr p with
        | nil => exact absurd hcp hp
        | cons a x => rw [List.getLast?_cons_cons]

/-- What `subdir_new` accepts, and the base it then holds. -/
theorem subdir_new_some {σ : Type} (calloc_succeeds : Bool)
    (parse : subdir_options → Option subdir_options) (next : List (fuse_fs σ))
    (realloc_succeeds fuse_fs_new_succeeds : Bool) (d : subdir σ)
    (h : subdir_new calloc_succeeds parse next realloc_succeeds fuse_fs_new_succeeds = some d) :
    ∃ o base, parse ⟨none, 0⟩ = some o ∧ o.base = some base ∧ next = [d.next] ∧
      d.rellinks = o.rellinks ∧ d.baselen = strlen d.base ∧
      ((deref base ≠ NUL ∧ deref (base.drop (strlen base - 1)) ≠ '/') →
        d.base = strcat base ['/']) ∧
      (¬ (deref base ≠ NUL ∧ deref (base.drop (strlen base - 1)) ≠ '/') → d.base = base) := by
  unfold subdir_new at h
  by_cases hc : calloc_succeeds = false
  · rw [if_pos hc] at h
    cases h
  rw [if_neg hc] at h
  cases hp : parse ⟨none, 0⟩ with
  | none => rw [hp] at h; cases h
  | some o =>
    rw [hp] at h
    simp only at h
    match next, h with
    | [next0], h =>
      simp only at h
      cases hb : o.base with
      | none => rw [hb] at h; cases h
      | some base =>
        rw [hb] at h
        simp only at h
        refine ⟨o, base, rfl, hb, ?_⟩
        by_cases hn : deref base ≠ NUL ∧ deref (base.drop (strlen base - 1)) ≠ '/'
        · rw [if_pos hn] at h
          by_cases hr : realloc_succeeds = false
          · rw [if_pos hr] at h
            cases h
          rw [if_neg hr] at h
          by_cases hf : fuse_fs_new_succeeds = false
          · rw [if_pos hf] at h
            cases h
          rw [if_neg hf] at h
          cases h
          exact ⟨rfl, rfl, rfl, fun _ => rfl, fun h2 => absurd hn h2⟩
        · rw [if_neg hn] at h
          by_cases hf : fuse_fs_new_succeeds = false
          · rw [if_pos hf] at h
            cases h
          rw [if_neg hf] at h
          cases h
          exact ⟨rfl, rfl, rfl, fun h2 => absurd h2 hn, fun _ => rfl⟩

/-- The entries of `subdir_opts` an argument can match, in table order. -/
theorem find_opt_subdir_opts (arg : List Char) :
    find_opt arg subdir_opts =
      if "-h".toList = arg then some (opt_action.key 0, [])
      else if "--help".toList = arg then some (opt_action.key 0, [])
      else if "subdir=".toList <+: arg then some (opt_action.set_base, arg.drop 7)
      else if "rellinks".toList = arg then some (opt_action.set_rellinks 1, [])
      else if "norellinks".toList = arg then some (opt_action.set_rellinks 0, [])
      else none := by
  have t1 : template_match "-h".toList arg = if "-h".toList = arg then some [] else none := rfl
  have t2 : template_match "--help".toList arg =
      if "--help".toList = arg then some [] else none := rfl
  have t3 : template_match "subdir=%s".toList arg =
      if "subdir=".toList <+: arg then some (arg.drop 7) else none := rfl
  have t4 : template_match "rellinks".toList arg =
      if "rellinks".toList = arg then some [] else none := rfl
  have t5 : template_match "norellinks".toList arg =
      if "norellinks".toList = arg then some [] else none := rfl
  simp only [subdir_opts, find_opt, t1, t2, t3, t4, t5]
  by_cases h1 : "-h".toList = arg
  · simp only [if_pos h1]
  simp only [if_neg h1]
  by_cases h2 : "--help".toList = arg
  · simp only [if_pos h2]
  simp only [if_neg h2]
  by_cases h3 : "subdir=".toList <+: arg
  · simp only [if_pos h3]
  simp only [if_neg h3]
  by_cases h4 : "rellinks".toList = arg
  · simp only [if_pos h4]
  simp only [if_neg h4]
  by_cases h5 : "norellinks".toList = arg
  · simp only [if_pos h5]
  simp only [if_neg h5]

/-- One step of the modelled parser, option by option. -/
theorem fuse_opt_parse_cons (arg : List Char) (args : List (List Char)) (d : subdir_options) :
    fuse_opt_parse (arg :: args) d =
      if "-h".toList = arg then none
      else if "--help".toList = arg then none
      else if "subdir=".toList <+: arg then fuse_opt_parse args ⟨some (arg.drop 7), d.rellinks⟩
      else if "rellinks".toList = arg then fuse_opt_parse args ⟨d.base, 1⟩
      else if "norellinks".toList = arg then fuse_opt_parse args ⟨d.base, 0⟩
      else fuse_opt_parse args d := by
  rw [fuse_opt_parse, find_opt_subdir_opts]
  have p0 : subdir_opt_proc 0 = -1 := rfl
  have p1 : ¬ subdir_opt_proc (-1) = -1 := by decide
  by_cases h1 : "-h".toList = arg
  · simp only [if_pos h1, p0, if_true]
  simp only [if_neg h1]
  by_cases h2 : "--help".toList = arg
  · simp only [if_pos h2, p0, if_true]
  simp only [if_neg h2]
  by_cases h3 : "subdir=".toList <+: arg
  · simp only [if_pos h3]
  simp only [if_neg h3]
  by_cases h4 : "rellinks".toList = arg
  · simp only [if_pos h4]
  simp only [if_neg h4]
  by_cases h5 : "norellinks".toList = arg
  · simp only [if_pos h5]
  simp only [if_neg h5, if_neg p1]

/-- The modelled parser leaves `base` alone when no argument is a `subdir=` option. -/
theorem fuse_opt_parse_base (args : List (List Char)) (d r : subdir_options)
    (hno : ∀ arg ∈ args, ¬ ("subdir=".toList <+: arg))
    (h : fuse_opt_parse args d = some r) : r.base = d.base := by
  induction args generalizing d with
  | nil =>
    rw [fuse_opt_parse] at h
    cases h
    rfl
  | cons arg args ih =>
    have hno2 : ∀ a ∈ args, ¬ ("subdir=".toList <+: a) :=
      fun a ha => hno a (List.mem_cons_of_mem _ ha)
    have h3 : ¬ ("subdir=".toList <+: arg) := hno arg (List.mem_cons_self _ _)
    rw [fuse_opt_parse_cons, if_neg h3] at h
    by_cases h1 : "-h".toList = arg
    · rw [if_pos h1] at h
      cases h
    rw [if_neg h1] at h
    by_cases h2 : "--help".toList = arg
    · rw [if_pos h2] at h
      cases h
    rw [if_neg h2] at h
    by_cases h4 : "rellinks".toList = arg
    · rw [if_pos h4] at h
      exact ih ⟨d.base, 1⟩ hno2 h
    rw [if_neg h4] at h
    by_cases h5 : "norellinks".toList = arg
    · rw [if_pos h5] at h
      exact ih ⟨d.base, 0⟩ hno2 h
    rw [if_neg h5] at h
    exact ih d hno2 h

/-- The modelled parser leaves `rellinks` at zero unless `rellinks` is an argument. -/
theorem fuse_opt_parse_rellinks (args : List (List Char)) (d r : subdir_options)
    (h : fuse_opt_parse args d = some r) (hr : r.rellinks ≠ 0) :
    d.rellinks ≠ 0 ∨ "rellinks".toList ∈ args := by
  induction args generalizing d with
  | nil =>
    rw [fuse_opt_parse] at h
    cases h
    exact Or.inl hr
  | cons arg args ih =>
    have lift : ∀ d2 : subdir_options, fuse_opt_parse args d2 = some r →
        d2.rellinks = d.rellinks → d.rellinks ≠ 0 ∨ "rellinks".toList ∈ arg :: args := by
      intro d2 h2 he
      rcases ih d2 h2 with h0 | h0
      · exact Or.inl (he ▸ h0)
      · exact Or.inr (List.mem_cons_of_mem _ h0)
    rw [fuse_opt_parse_cons] at h
    by_cases h1 : "-h".toList = arg
    · rw [if_pos h1] at h
      cases h
    rw [if_neg h1] at h
    by_cases h2 : "--help".toList = arg
    · rw [if_pos h2] at h
      cases h
    rw [if_neg h2] at h
    by_cases h3 : "subdir=".toList <+: arg
    · rw [if_pos h3] at h
      exact lift _ h rfl
    rw [if_neg h3] at h
    by_cases h4 : "rellinks".toList = arg
    · exact Or.inr (h4 ▸ List.mem_cons_self _ _)
    rw [if_neg h4] at h
    by_cases h5 : "norellinks".toList = arg
    · rw [if_pos h5] at h
      rcases ih _ h with h0 | h0
      · exact absurd rfl h0
      · exact Or.inr (List.mem_cons_of_mem _ h0)
    rw [if_neg h5] at h
    exact lift _ h rfl

/-! ## C1: path translation -/

/-- C1: for a configuration whose `baselen` is the length of its base, when the
allocation succeeds `subdir_addpath` returns the base followed by the path with one
leading `/` removed (only if present), and `.` when that concatenation is empty.
When the `unsigned` sum does not wrap and the block has the requested size, every
byte is stored inside the block. -/
theorem subdir_addpath_translate {σ : Type} (malloc : Nat → Option (List Char))
    (d : subdir σ) (path block : List Char) (hlen : d.baselen = strlen d.base)
    (hm : malloc (((d.baselen + strlen path) % 2 ^ 32 + 2) % 2 ^ 32) = some block) :
    ∃ newpath, subdir_addpath malloc d path = some newpath ∧
      cstr newpath = (if cstr d.base ++ strip_leading_slash (cstr path) = [] then ['.']
        else cstr d.base ++ strip_leading_slash (cstr path)) ∧
      (d.baselen + strlen path + 2 < 2 ^ 32 →
        block.length = ((d.baselen + strlen path) % 2 ^ 32 + 2) % 2 ^ 32 →
        newpath.length = block.length) := by
  obtain ⟨np, hnp, hc, hl⟩ := subdir_addpath_some malloc d path block hm hlen
  refine ⟨np, hnp, hc, ?_⟩
  intro hfit hb
  apply hl
  rw [hb, Nat.mod_eq_of_lt (by omega : d.baselen + strlen path < 2 ^ 32),
    Nat.mod_eq_of_lt hfit]

/-- Witness for C1: `/a/b` under base `/mnt/sub/` becomes `/mnt/sub/a/b`. -/
theorem subdir_addpath_translate_witness :
    dsub.baselen = strlen dsub.base ∧
    calloc_ok (((dsub.baselen + strlen "/a/b".toList) % 2 ^ 32 + 2) % 2 ^ 32) =
      some (List.replicate 15 NUL) ∧
    ∃ newpath, subdir_addpath calloc_ok dsub "/a/b".toList = some newpath ∧
      cstr newpath = (if cstr dsub.base ++ strip_leading_slash (cstr "/a/b".toList) = []
        then ['.'] else cstr dsub.base ++ strip_leading_slash (cstr "/a/b".toList)) ∧
      (dsub.baselen + strlen "/a/b".toList + 2 < 2 ^ 32 →
        (List.replicate 15 NUL).length =
          ((dsub.baselen + strlen "/a/b".toList) % 2 ^ 32 + 2) % 2 ^ 32 →
        newpath.length = (List.replicate 15 NUL).length) :=
  ⟨by decide, by decide,
    subdir_addpath_translate calloc_ok dsub "/a/b".toList (List.replicate 15 NUL)
      (by decide) (by decide)⟩

/-! ## C2: the contents after a rewrite -/

/-- C2: whenever `transform_symlink` rewrites the buffer, the new contents are `count`
copies of `../` followed by `L'`, where `L'` and `P'` are what `strip_common` leaves
of the target and of the link path and `count` is the number of segments of `P'`
minus one; when `L'` is empty the contents are `.` if `count = 0` and exactly the
`../` blocks otherwise. -/
theorem transform_symlink_contents {σ : Type} (d : subdir σ) (path buf : List Char)
    (size : Nat) (h : transform_symlink d path buf size ≠ buf) :
    (cstr (strip_common buf path).1 ≠ [] →
      cstr (transform_symlink d path buf size) =
        dotdot_blocks ((segments (strip_common buf path).2).length - 1) ++
          cstr (strip_common buf path).1) ∧
    (cstr (strip_common buf path).1 = [] →
      (segments (strip_common buf path).2).length - 1 = 0 →
      cstr (transform_symlink d path buf size) = ['.']) ∧
    (cstr (strip_common buf path).1 = [] →
      0 < (segments (strip_common buf path).2).length - 1 →
      cstr (transform_symlink d path buf size) =
        dotdot_blocks ((segments (strip_common buf path).2).length - 1)) := by
  have hc := cstr_transform_symlink d path buf size h
  rw [count_components_eq] at hc
  rw [hc]
  refine ⟨?_, ?_, ?_⟩
  · intro hl
    have : strlen (strip_common buf path).1 ≠ 0 := fun h0 => hl ((strlen_eq_zero_iff _).1 h0)
    rw [new_suffix, if_pos this]
  · intro hl h0
    have : ¬ strlen (strip_common buf path).1 ≠ 0 := fun h1 => h1 ((strlen_eq_zero_iff _).2 hl)
    rw [new_suffix, if_neg this, if_pos h0, h0]
    rfl
  · intro hl h0
    have : ¬ strlen (strip_common buf path).1 ≠ 0 := fun h1 => h1 ((strlen_eq_zero_iff _).2 hl)
    rw [new_suffix, if_neg this, if_neg (by omega), List.append_nil]

/-- Witness for C2: base `/mnt/sub/`, link at `/mnt/sub/a/b/link`, target
`/mnt/sub/a/c/file` gives `../c/file`. -/
theorem transform_symlink_contents_witness :
    transform_symlink dsub "/mnt/sub/a/b/link".toList
        (mkbuf "/mnt/sub/a/c/file".toList 32) 32 ≠ mkbuf "/mnt/sub/a/c/file".toList 32 ∧
    cstr (transform_symlink dsub "/mnt/sub/a/b/link".toList
        (mkbuf "/mnt/sub/a/c/file".toList 32) 32) = "../c/file".toList :=
  ⟨by decide,
    ((transform_symlink_contents dsub "/mnt/sub/a/b/link".toList
      (mkbuf "/mnt/sub/a/c/file".toList 32) 32 (by decide)).1 (by decide)).trans
      (by decide)⟩

/-! ## C3: a rewrite preserves the meaning of the target -/

/-- C3: for every rewrite `transform_symlink` performs on a link path without `.` or
`..` segments, resolving the new target from the directory of the link (the segments
of the link path without the last) gives the same segments as resolving the original
absolute target from the root. -/
theorem transform_symlink_preserves_meaning {σ : Type} (d : subdir σ)
    (path buf : List Char) (size : Nat) (h : transform_symlink d path buf size ≠ buf)
    (hP : ∀ seg ∈ segments path, seg ≠ ['.'] ∧ seg ≠ ['.', '.']) :
    resolve (segments path).dropLast (transform_symlink d path buf size) = resolve [] buf := by
  have hg := (transform_symlink_ne_iff d path buf size).1 h
  obtain ⟨C, hC1, hC2⟩ := strip_common_segments buf path
  have hk : (segments (strip_common buf path).2) ≠ [] := by
    intro h0
    apply hg.2.2.2.1
    rw [count_components_eq, h0]
    rfl
  have hCplain : ∀ seg ∈ C, seg ≠ ['.'] ∧ seg ≠ ['.', '.'] := by
    intro seg hseg
    apply hP
    rw [hC2]
    exact List.mem_append_left _ hseg
  have hdir : (segments path).dropLast = C ++ (segments (strip_common buf path).2).dropLast := by
    rw [hC2, List.dropLast_append_of_ne_nil _ hk]
  have hroot : resolve [] buf = (segments (strip_common buf path).1).foldl resolve_step C := by
    rw [resolve, hC1, List.foldl_append, foldl_resolve_step_plain C [] hCplain]
    rfl
  rw [hroot, resolve, ← segments_cstr (transform_symlink d path buf size),
    cstr_transform_symlink d path buf size h, segments_dotdot_blocks, List.foldl_append,
    hdir, foldl_resolve_step_dotdots _ C _ (by rw [List.length_dropLast, count_components_eq]),
    segments_new_suffix]
  by_cases hl : strlen (strip_common buf path).1 ≠ 0
  · rw [if_pos hl]
  · rw [if_neg hl]
    have hnil : segments (strip_common buf path).1 = [] := by
      apply segments_of_deref_nul
      rw [deref_eq_nul_iff, ← strlen_eq_zero_iff]
      exact not_not.1 hl
    rw [hnil]
    split
    · rfl
    · rfl

/-- Witness for C3: the link `/mnt/sub/a/b/link` with target `/mnt/sub/a/c/file`;
both resolutions give `mnt, sub, a, c, file`. -/
theorem transform_symlink_preserves_meaning_witness :
    resolve (segments "/mnt/sub/a/b/link".toList).dropLast
        (transform_symlink dsub "/mnt/sub/a/b/link".toList
          (mkbuf "/mnt/sub/a/c/file".toList 32) 32) =
      resolve [] (mkbuf "/mnt/sub/a/c/file".toList 32) ∧
    resolve [] (mkbuf "/mnt/sub/a/c/file".toList 32) =
      ["mnt".toList, "sub".toList, "a".toList, "c".toList, "file".toList] :=
  ⟨transform_symlink_preserves_meaning dsub "/mnt/sub/a/b/link".toList
      (mkbuf "/mnt/sub/a/c/file".toList 32) 32 (by decide) (by decide),
    by decide⟩

/-! ## C4: targets outside the base -/

/-- C4, as stated, fails.  With base `/mnt/sub/` and link path `/mnt/sub/link`, the
target `/mnt//////x` has segments `mnt, x`, which do not begin with the segments
`mnt, sub` of the base; but `L'` starts at offset 10 of the target, not before
`baselen = 9`, and the buffer is rewritten to `../x`.  Likewise with the base
`/mnt/sub`, which has no final separator, link path `/mnt/subx/link` and target
`/mnt/subx/y`: the buffer is rewritten to `y`. -/
theorem transform_symlink_outside_base_counterexample :
    (deref dsub.base = '/' ∧ "/mnt/sub/link".toList = dsub.base ++ "link".toList ∧
      deref (mkbuf "/mnt//////x".toList 32) = '/' ∧
      ¬ (segments dsub.base <+: segments (mkbuf "/mnt//////x".toList 32)) ∧
      transform_symlink dsub "/mnt/sub/link".toList (mkbuf "/mnt//////x".toList 32) 32 ≠
        mkbuf "/mnt//////x".toList 32 ∧
      cstr (transform_symlink dsub "/mnt/sub/link".toList
        (mkbuf "/mnt//////x".toList 32) 32) = "../x".toList) ∧
    (deref dsub_bare.base = '/' ∧
      "/mnt/subx/link".toList = dsub_bare.base ++ "x/link".toList ∧
      deref (mkbuf "/mnt/subx/y".toList 32) = '/' ∧
      ¬ (segments dsub_bare.base <+: segments (mkbuf "/mnt/subx/y".toList 32)) ∧
      transform_symlink dsub_bare "/mnt/subx/link".toList
        (mkbuf "/mnt/subx/y".toList 32) 32 ≠ mkbuf "/mnt/subx/y".toList 32 ∧
      cstr (transform_symlink dsub_bare "/mnt/subx/link".toList
        (mkbuf "/mnt/subx/y".toList 32) 32) = ['y']) := by
  decide

/-- C4, amended: for a base that ends with `/` (with `baselen` its length), a link path
`P = base ++ rest` and a target `L` without two separators in a row, if the segments
of the base are not the leading segments of `L` then `transform_symlink` leaves the
buffer unchanged, whatever the capacity. -/
theorem transform_symlink_outside_base {σ : Type} (d : subdir σ)
    (path buf rest : List Char) (size : Nat) (hlen : d.baselen = strlen d.base)
    (hslash : (cstr d.base).getLast? = some '/') (hP : cstr path = cstr d.base ++ rest)
    (hnorm : single_slashes buf = true) (hout : ¬ (segments d.base <+: segments buf)) :
    transform_symlink d path buf size = buf := by
  by_contra hne
  have hg := (transform_symlink_ne_iff d path buf size).1 hne
  have hesc := escape_check_refuses d path buf rest hlen hslash hP hnorm hout
  omega

/-- Witness for the amended C4: the target `/outside/x` with base `/mnt/sub/` is left
unchanged. -/
theorem transform_symlink_outside_base_witness :
    transform_symlink dsub "/mnt/sub/link".toList (mkbuf "/outside/x".toList 32) 32 =
      mkbuf "/outside/x".toList 32 :=
  transform_symlink_outside_base dsub "/mnt/sub/link".toList (mkbuf "/outside/x".toList 32)
    "link".toList 32 (by decide) (by decide) (by decide) (by decide) (by decide)

/-! ## C5: the rewrite stays within the capacity -/

/-- C5: for a buffer of at least `size` bytes, `transform_symlink` either leaves the
buffer unchanged, or leaves a buffer of the same length that holds a NUL-terminated
string whose length plus terminator is at most `size` and whose bytes from index
`size` on are the original ones; when the `../` blocks, the suffix and the terminator
do not fit in `size` bytes the buffer is unchanged. -/
theorem transform_symlink_within_capacity {σ : Type} (d : subdir σ) (path buf : List Char)
    (size : Nat) (hcap : size ≤ buf.length) :
    (transform_symlink d path buf size = buf ∨
      ((transform_symlink d path buf size).length = buf.length ∧
        strlen (transform_symlink d path buf size) + 1 ≤ size ∧
        (transform_symlink d path buf size)[strlen (transform_symlink d path buf size)]?
          = some NUL ∧
        (transform_symlink d path buf size).drop size = buf.drop size)) ∧
    (size < (count_components (strip_common buf path).2 - 1) * 3 +
        strlen (strip_common buf path).1 + 1 →
      transform_symlink d path buf size = buf) := by
  constructor
  · by_cases h : transform_symlink d path buf size = buf
    · exact Or.inl h
    · right
      have hg := (transform_symlink_ne_iff d path buf size).1 h
      have hs := cstr_transform_symlink d path buf size h
      have hle := length_new_suffix_le (strip_common buf path).1
        (count_components (strip_common buf path).2 - 1)
      have hX : (dotdot_blocks (count_components (strip_common buf path).2 - 1) ++
          new_suffix (strip_common buf path).1
            (count_components (strip_common buf path).2 - 1)).length =
          (count_components (strip_common buf path).2 - 1) * 3 +
            (new_suffix (strip_common buf path).1
              (count_components (strip_common buf path).2 - 1)).length := by
        rw [List.length_append, length_dotdot_blocks]
      have hlen : strlen (transform_symlink d path buf size) =
          (dotdot_blocks (count_components (strip_common buf path).2 - 1) ++
            new_suffix (strip_common buf path).1
              (count_components (strip_common buf path).2 - 1)).length := by
        rw [strlen_eq_length_cstr, hs]
      have hf := overwrite_head_facts
        (dotdot_blocks (count_components (strip_common buf path).2 - 1) ++
          new_suffix (strip_common buf path).1
            (count_components (strip_common buf path).2 - 1)) buf size (by omega) hcap
      rw [hlen]
      rw [transform_symlink_eq, if_pos hg, ← List.append_assoc, ← hX]
      exact ⟨hf.1, by omega, hf.2.1, hf.2.2⟩
  · intro hlt
    by_contra h
    have hg := (transform_symlink_ne_iff d path buf size).1 h
    omega

/-- Witness for C5: a 32-byte buffer holding `/mnt/sub/a/c/file`. -/
theorem transform_symlink_within_capacity_witness :
    32 ≤ (mkbuf "/mnt/sub/a/c/file".toList 32).length ∧
    (transform_symlink dsub "/mnt/sub/a/b/link".toList
        (mkbuf "/mnt/sub/a/c/file".toList 32) 10 = mkbuf "/mnt/sub/a/c/file".toList 32) :=
  ⟨by decide,
    ((transform_symlink_within_capacity dsub "/mnt/sub/a/b/link".toList
      (mkbuf "/mnt/sub/a/c/file".toList 32) 10 (by decide)).1).elim id
      (fun h => absurd h.2.1 (by decide))⟩

/-! ## C6: the two-path operations -/

/-- C6: in `subdir_rename` and `subdir_link`, if translating either path fails the
call returns `-ENOMEM` and the inner state is untouched (the inner operation is not
invoked); if both translations succeed the result is that of one invocation of the
inner operation on the two translated paths, status unchanged. -/
theorem subdir_rename_link_all_or_nothing {σ : Type}
    (malloc1 malloc2 : Nat → Option (List Char)) (d : subdir σ) (st : σ)
    (src dst : List Char) :
    ((subdir_addpath malloc1 d src = none ∨ subdir_addpath malloc2 d dst = none) →
      subdir_rename malloc1 malloc2 d st src dst = (-ENOMEM, st) ∧
      subdir_link malloc1 malloc2 d st src dst = (-ENOMEM, st)) ∧
    (∀ newfrom newto, subdir_addpath malloc1 d src = some newfrom →
      subdir_addpath malloc2 d dst = some newto →
      subdir_rename malloc1 malloc2 d st src dst = d.next.rename st newfrom newto ∧
      subdir_link malloc1 malloc2 d st src dst = d.next.link st newfrom newto) := by
  constructor
  · intro h
    unfold subdir_rename subdir_link
    rcases h with h | h
    · rw [h]; exact ⟨rfl, rfl⟩
    · rw [h]
      cases subdir_addpath malloc1 d src <;> exact ⟨rfl, rfl⟩
  · intro newfrom newto h1 h2
    unfold subdir_rename subdir_link
    rw [h1, h2]
    exact ⟨rfl, rfl⟩

/-- Witness for C6: over a provider that records its calls, a failed second
translation gives `-ENOMEM` and records nothing; two successful translations record
exactly one call with `/mnt/sub/a` and `/mnt/sub/b`, and the status (0 for `rename`,
`-17` for `link`) is the provider's. -/
theorem subdir_rename_link_all_or_nothing_witness :
    subdir_rename calloc_ok malloc_fail (dlog 0 true) [] "/a".toList "/b".toList =
      (-12, []) ∧
    subdir_rename calloc_ok calloc_ok (dlog 0 true) [] "/a".toList "/b".toList =
      (0, ["/mnt/sub/a".toList, "/mnt/sub/b".toList]) ∧
    subdir_link calloc_ok calloc_ok (dlog 0 true) [] "/a".toList "/b".toList =
      (-17, ["/mnt/sub/a".toList, "/mnt/sub/b".toList]) :=
  ⟨((subdir_rename_link_all_or_nothing calloc_ok malloc_fail (dlog 0 true) []
      "/a".toList "/b".toList).1 (Or.inr (by decide))).1,
    ((subdir_rename_link_all_or_nothing calloc_ok calloc_ok (dlog 0 true) []
      "/a".toList "/b".toList).2 (mkbuf "/mnt/sub/a".toList 13) (mkbuf "/mnt/sub/b".toList 13)
      (by decide) (by decide)).1.trans (by decide),
    ((subdir_rename_link_all_or_nothing calloc_ok calloc_ok (dlog 0 true) []
      "/a".toList "/b".toList).2 (mkbuf "/mnt/sub/a".toList 13) (mkbuf "/mnt/sub/b".toList 13)
      (by decide) (by decide)).2.trans (by decide)⟩

/-! ## C7: the ascent count when `P'` has no segment left -/

/-- C7, as stated, fails: with base `/mnt/sub/`, link path `/mnt/sub/a` and target
`/mnt/sub/a/x` the preconditions and the escape check pass, `P'` has no segments,
`L'` is `x` and the capacity is ample, yet the buffer is not rewritten to `x`: it is
left as it was. -/
theorem transform_symlink_no_segment_counterexample :
    deref (mkbuf "/mnt/sub/a/x".toList 32) = '/' ∧ deref dsub.base = '/' ∧
    dsub.baselen ≤ (mkbuf "/mnt/sub/a/x".toList 32).length -
      (strip_common (mkbuf "/mnt/sub/a/x".toList 32) "/mnt/sub/a".toList).1.length ∧
    segments (strip_common (mkbuf "/mnt/sub/a/x".toList 32) "/mnt/sub/a".toList).2 = [] ∧
    cstr (strip_common (mkbuf "/mnt/sub/a/x".toList 32) "/mnt/sub/a".toList).1 = ['x'] ∧
    cstr (transform_symlink dsub "/mnt/sub/a".toList (mkbuf "/mnt/sub/a/x".toList 32) 32)
      ≠ ['x'] ∧
    transform_symlink dsub "/mnt/sub/a".toList (mkbuf "/mnt/sub/a/x".toList 32) 32 =
      mkbuf "/mnt/sub/a/x".toList 32 := by
  decide

/-- C7, amended: when the preconditions and the escape check pass and `P'` has no
segments, `transform_symlink` leaves the buffer unchanged whatever the capacity; the
count is 0 when `P'` has exactly one segment, and then a capacity of at least
`length L' + 2` makes the buffer hold `L'`, or `.` if `L'` is empty. -/
theorem transform_symlink_count_zero {σ : Type} (d : subdir σ) (path buf : List Char)
    (size : Nat) (habs : deref buf = '/') (hbase : deref d.base = '/')
    (hesc : d.baselen ≤ buf.length - (strip_common buf path).1.length) :
    (segments (strip_common buf path).2 = [] → transform_symlink d path buf size = buf) ∧
    ((segments (strip_common buf path).2).length = 1 →
      strlen (strip_common buf path).1 + 2 ≤ size →
      cstr (transform_symlink d path buf size) =
        if cstr (strip_common buf path).1 = [] then ['.']
        else cstr (strip_common buf path).1) := by
  constructor
  · intro h0
    by_contra hne
    have hg := (transform_symlink_ne_iff d path buf size).1 hne
    rw [count_components_eq, h0] at hg
    exact hg.2.2.2.1 rfl
  · intro h1 hsz
    have hcc : count_components (strip_common buf path).2 = 1 := by
      rw [count_components_eq, h1]
    have hne : transform_symlink d path buf size ≠ buf := by
      rw [transform_symlink_ne_iff, hcc]
      exact ⟨habs, hbase, hesc, by omega, by omega⟩
    rw [cstr_transform_symlink d path buf size hne, hcc]
    simp only [dotdot_blocks, List.nil_append, new_suffix]
    by_cases hl : cstr (strip_common buf path).1 = []
    · rw [if_pos hl, if_neg (by rw [not_not, strlen_eq_zero_iff]; exact hl)]
      rfl
    · rw [if_neg hl, if_pos (by rw [Ne, strlen_eq_zero_iff]; exact hl)]

/-- Witness for the amended C7: link `/mnt/sub/a/link` with target `/mnt/sub/a/x`,
where `P'` is the single segment `link`, is rewritten to `x`. -/
theorem transform_symlink_count_zero_witness :
    cstr (transform_symlink dsub "/mnt/sub/a/link".toList
      (mkbuf "/mnt/sub/a/x".toList 32) 32) = ['x'] :=
  ((transform_symlink_count_zero dsub "/mnt/sub/a/link".toList
    (mkbuf "/mnt/sub/a/x".toList 32) 32 (by decide) (by decide) (by decide)).2
    (by decide) (by decide)).trans (by decide)

/-! ## C8: the space a rewrite requires -/

/-- C8, as stated, fails: with base `/mnt/sub/`, link path `/mnt/sub/a/b/c/d/link` and
target `/mnt/sub/x` the count is 4 and `L'` is `x`, so `count * 3 + length L' + 1` is
14; with capacity 14 the preconditions and the escape check pass and `P'` has
segments, yet the buffer is left unchanged. -/
theorem transform_symlink_space_counterexample :
    deref (mkbuf "/mnt/sub/x".toList 14) = '/' ∧ deref dsub.base = '/' ∧
    dsub.baselen ≤ (mkbuf "/mnt/sub/x".toList 14).length -
      (strip_common (mkbuf "/mnt/sub/x".toList 14) "/mnt/sub/a/b/c/d/link".toList).1.length ∧
    (segments
      (strip_common (mkbuf "/mnt/sub/x".toList 14) "/mnt/sub/a/b/c/d/link".toList).2).length
      = 5 ∧
    strlen (strip_common (mkbuf "/mnt/sub/x".toList 14) "/mnt/sub/a/b/c/d/link".toList).1
      = 1 ∧
    ¬ (14 < (5 - 1) * 3 + 1 + 1) ∧
    transform_symlink dsub "/mnt/sub/a/b/c/d/link".toList (mkbuf "/mnt/sub/x".toList 14) 14 =
      mkbuf "/mnt/sub/x".toList 14 := by
  decide

/-- C8, amended: when the preconditions and the escape check pass and `P'` has at
least one segment, the rewrite is abandoned for lack of space exactly when
`count * 3 + length L' + 2` exceeds the capacity `size`. -/
theorem transform_symlink_space {σ : Type} (d : subdir σ) (path buf : List Char)
    (size : Nat) (habs : deref buf = '/') (hbase : deref d.base = '/')
    (hesc : d.baselen ≤ buf.length - (strip_common buf path).1.length)
    (hseg : segments (strip_common buf path).2 ≠ []) :
    transform_symlink d path buf size = buf ↔
      size < ((segments (strip_common buf path).2).length - 1) * 3 +
        strlen (strip_common buf path).1 + 2 := by
  have hcc : count_components (strip_common buf path).2 ≠ 0 := by
    rw [count_components_eq]
    exact fun h => hseg (List.length_eq_zero.1 h)
  rw [← count_components_eq]
  constructor
  · intro h
    by_contra hlt
    exact (transform_symlink_ne_iff d path buf size).2
      ⟨habs, hbase, hesc, hcc, by omega⟩ h
  · intro hlt
    by_contra hne
    have hg := (transform_symlink_ne_iff d path buf size).1 hne
    omega

/-- Witness for the amended C8: capacity 15 = `4 * 3 + 1 + 2` is enough for
`../../../../x`, so the buffer is rewritten. -/
theorem transform_symlink_space_witness :
    transform_symlink dsub "/mnt/sub/a/b/c/d/link".toList (mkbuf "/mnt/sub/x".toList 15) 15 ≠
      mkbuf "/mnt/sub/x".toList 15 :=
  fun h => absurd ((transform_symlink_space dsub "/mnt/sub/a/b/c/d/link".toList
    (mkbuf "/mnt/sub/x".toList 15) 15 (by decide) (by decide) (by decide) (by decide)).1 h)
    (by decide)

/-! ## C9: reading a link -/

/-- C9: `subdir_readlink` returns `-ENOMEM` with buffer and inner state untouched when
the translation fails; otherwise it returns the status and state of one inner
`readlink` on the translated path, and the buffer is `transform_symlink` of the
translated path and the returned target exactly when `rellinks` is on and the status
is 0, and is the buffer the inner provider left in every other case. -/
theorem subdir_readlink_status_and_buffer {σ : Type} (malloc : Nat → Option (List Char))
    (d : subdir σ) (st : σ) (path buf : List Char) (size : Nat) :
    (subdir_addpath malloc d path = none →
      subdir_readlink malloc d st path buf size = (-ENOMEM, buf, st)) ∧
    (∀ newpath, subdir_addpath malloc d path = some newpath →
      (subdir_readlink malloc d st path buf size).1 =
        (d.next.readlink st newpath buf size).1 ∧
      (subdir_readlink malloc d st path buf size).2.2 =
        (d.next.readlink st newpath buf size).2.2 ∧
      ((d.next.readlink st newpath buf size).1 = 0 ∧ d.rellinks ≠ 0 →
        (subdir_readlink malloc d st path buf size).2.1 =
          transform_symlink d newpath (d.next.readlink st newpath buf size).2.1 size) ∧
      (¬ ((d.next.readlink st newpath buf size).1 = 0 ∧ d.rellinks ≠ 0) →
        (subdir_readlink malloc d st path buf size).2.1 =
          (d.next.readlink st newpath buf size).2.1)) := by
  constructor
  · intro h
    simp only [subdir_readlink, h]
  · intro newpath h
    simp only [subdir_readlink, h]
    by_cases hc : (d.next.readlink st newpath buf size).1 = 0 ∧ d.rellinks ≠ 0
    · rw [if_pos hc]
      exact ⟨rfl, rfl, fun _ => rfl, fun h => absurd hc h⟩
    · rw [if_neg hc]
      exact ⟨rfl, rfl, fun h => absurd h hc, fun _ => rfl⟩

/-- Witness for C9: over a provider that records its calls and returns the target
`/mnt/sub/a/c/file`: a failed translation gives `-ENOMEM` and no call; with `rellinks`
on and status 0 the buffer is the transformed one. -/
theorem subdir_readlink_status_and_buffer_witness :
    subdir_readlink malloc_fail (dlog 1 true) [] "/a/b/link".toList
      (List.replicate 32 NUL) 32 = (-12, List.replicate 32 NUL, []) ∧
    (subdir_readlink calloc_ok (dlog 1 true) [] "/a/b/link".toList
      (List.replicate 32 NUL) 32).2.1 =
      transform_symlink (dlog 1 true) (mkbuf "/mnt/sub/a/b/link".toList 20)
        (mkbuf "/mnt/sub/a/c/file".toList 32) 32 :=
  ⟨(subdir_readlink_status_and_buffer malloc_fail (dlog 1 true) [] "/a/b/link".toList
      (List.replicate 32 NUL) 32).1 (by decide),
    ((subdir_readlink_status_and_buffer calloc_ok (dlog 1 true) [] "/a/b/link".toList
      (List.replicate 32 NUL) 32).2 (mkbuf "/mnt/sub/a/b/link".toList 20)
      (by decide)).2.2.1 (by decide)⟩

/-! ## C10: injectivity of the translation -/

/-- C10: for a fixed non-empty base, two distinct paths that each begin with `/` are
translated by `subdir_addpath` to distinct strings. -/
theorem subdir_addpath_injective {σ : Type} (malloc1 malloc2 : Nat → Option (List Char))
    (d : subdir σ) (p1 p2 n1 n2 : List Char) (hlen : d.baselen = strlen d.base)
    (hbase : cstr d.base ≠ []) (h1 : deref p1 = '/') (h2 : deref p2 = '/')
    (hn1 : subdir_addpath malloc1 d p1 = some n1)
    (hn2 : subdir_addpath malloc2 d p2 = some n2)
    (hne : cstr p1 ≠ cstr p2) : cstr n1 ≠ cstr n2 := by
  intro heq
  have e1 := cstr_of_subdir_addpath malloc1 d p1 n1 hlen hn1
  have e2 := cstr_of_subdir_addpath malloc2 d p2 n2 hlen hn2
  have hb1 : ¬ cstr d.base ++ strip_leading_slash (cstr p1) = [] := by simp [hbase]
  have hb2 : ¬ cstr d.base ++ strip_leading_slash (cstr p2) = [] := by simp [hbase]
  rw [if_neg hb1] at e1
  rw [if_neg hb2] at e2
  rw [e1, e2] at heq
  have hs := List.append_cancel_left heq
  rw [cstr_tail_of_slash p1 h1, cstr_tail_of_slash p2 h2] at hs
  apply hne
  rw [cstr_tail_of_slash p1 h1, cstr_tail_of_slash p2 h2]
  simpa [strip_leading_slash] using hs

/-- Witness for C10: `/a` and `/b` under base `/mnt/sub/`. -/
theorem subdir_addpath_injective_witness :
    cstr ("/mnt/sub/a".toList ++ List.replicate 3 NUL) ≠
      cstr ("/mnt/sub/b".toList ++ List.replicate 3 NUL) :=
  subdir_addpath_injective calloc_ok calloc_ok dsub "/a".toList "/b".toList
    ("/mnt/sub/a".toList ++ List.replicate 3 NUL)
    ("/mnt/sub/b".toList ++ List.replicate 3 NUL)
    (by decide) (by decide) (by decide) (by decide) (by decide) (by decide) (by decide)

/-! ## C11: a link to its own directory -/

/-- C11, as stated, fails for the base directory written without its final separator:
with base `/mnt/sub/`, the link `/mnt/sub/link` lies directly in the base directory
`/mnt/sub`, and its target `/mnt/sub` names that directory; the capacity is 32, yet
the buffer is left unchanged, because the target ends at offset 8, before
`baselen = 9`. -/
theorem transform_symlink_self_reference_counterexample :
    (cstr dsub.base).getLast? = some '/' ∧ deref dsub.base = '/' ∧
    cstr "/mnt/sub/link".toList = "/mnt/sub".toList ++ '/' :: "link".toList ∧
    cstr (mkbuf "/mnt/sub".toList 32) = "/mnt/sub".toList ∧
    segments "/mnt/sub".toList = segments dsub.base ∧ 2 ≤ 32 ∧
    cstr (transform_symlink dsub "/mnt/sub/link".toList (mkbuf "/mnt/sub".toList 32) 32)
      ≠ ['.'] ∧
    transform_symlink dsub "/mnt/sub/link".toList (mkbuf "/mnt/sub".toList 32) 32 =
      mkbuf "/mnt/sub".toList 32 := by
  decide

/-- C11, amended: for an absolute base, a directory `D` and a link `D/name` with `name`
a single segment, an absolute target that is `D` written with or without a final `/`
and is at least `baselen` bytes long is rewritten to `.` whenever the capacity is at
least 2; the target is that long whenever `D` is the base followed by anything. -/
theorem transform_symlink_self_reference {σ : Type} (d : subdir σ)
    (path buf D name : List Char) (size : Nat) (hbase : deref d.base = '/')
    (habs : deref buf = '/') (hD : ∀ c ∈ D, c ≠ NUL) (hne : name ≠ [])
    (hname : ∀ c ∈ name, c ≠ NUL ∧ c ≠ '/') (hpath : cstr path = D ++ '/' :: name)
    (htgt : cstr buf = D ∨ cstr buf = D ++ ['/']) (hsize : 2 ≤ size) :
    (d.baselen ≤ strlen buf → cstr (transform_symlink d path buf size) = ['.']) ∧
    (∀ rest, d.baselen = strlen d.base → D = cstr d.base ++ rest →
      cstr (transform_symlink d path buf size) = ['.']) := by
  have hseg : segments path = segments buf ++ [name] := by
    rw [← segments_cstr path, hpath, segments_append_name D name hD hne hname,
      ← segments_cstr buf]
    rcases htgt with h | h
    · rw [h]
    · rw [h, segments_append_slash D hD]
  obtain ⟨hd, hp, hoff⟩ := strip_common_of_child buf path name hseg
  have hl0 : strlen (strip_common buf path).1 = 0 :=
    (strlen_eq_zero_iff _).2 ((deref_eq_nul_iff _).1 hd)
  have hcc : count_components (strip_common buf path).2 = 1 := by
    rw [count_components_eq, hp]
    rfl
  have main : d.baselen ≤ strlen buf → cstr (transform_symlink d path buf size) = ['.'] := by
    intro hlen
    have hne2 : transform_symlink d path buf size ≠ buf := by
      rw [transform_symlink_ne_iff, hcc, hl0, hoff]
      exact ⟨habs, hbase, hlen, by omega, by omega⟩
    rw [cstr_transform_symlink d path buf size hne2, hcc, new_suffix, hl0]
    rfl
  refine ⟨main, ?_⟩
  intro rest hbl hDb
  apply main
  rw [hbl, strlen_eq_length_cstr, strlen_eq_length_cstr buf]
  rcases htgt with h | h
  · rw [h, hDb, List.length_append]
    omega
  · rw [h, hDb, List.length_append, List.length_append]
    omega

/-- Witness for the amended C11: base `/mnt/sub/`, link at `/mnt/sub/a/link`, target
`/mnt/sub/a`, capacity 2. -/
theorem transform_symlink_self_reference_witness :
    cstr (transform_symlink dsub "/mnt/sub/a/link".toList (mkbuf "/mnt/sub/a".toList 32) 2)
      = ['.'] :=
  (transform_symlink_self_reference dsub "/mnt/sub/a/link".toList
    (mkbuf "/mnt/sub/a".toList 32) "/mnt/sub/a".toList "link".toList 2 (by decide)
    (by decide) (by decide) (by decide) (by decide) (by decide) (Or.inl (by decide))
    (by decide)).2 ['a'] (by decide) (by decide)

/-! ## C12: targets and bases that are not absolute -/

/-- C12: when the target does not begin with `/`, or the base does not begin with `/`
(the empty base included), `transform_symlink` leaves the buffer unchanged whatever
the link path and the capacity, and `subdir_readlink` then returns exactly what the
inner `readlink` returned: status, buffer and state. -/
theorem transform_symlink_not_absolute {σ : Type} (malloc : Nat → Option (List Char))
    (d : subdir σ) (st : σ) (path newpath buf target : List Char) (size : Nat) :
    ((deref target ≠ '/' ∨ deref d.base ≠ '/') →
      transform_symlink d path target size = target) ∧
    (subdir_addpath malloc d path = some newpath →
      (deref (d.next.readlink st newpath buf size).2.1 ≠ '/' ∨ deref d.base ≠ '/') →
      subdir_readlink malloc d st path buf size = d.next.readlink st newpath buf size) := by
  constructor
  · intro h
    rw [transform_symlink, if_pos h]
  · intro hp h
    simp only [subdir_readlink, hp]
    by_cases hc : (d.next.readlink st newpath buf size).1 = 0 ∧ d.rellinks ≠ 0
    · rw [if_pos hc, transform_symlink, if_pos h]
    · rw [if_neg hc]

/-- Witness for C12: the relative target `../c/file` and the empty base. -/
theorem transform_symlink_not_absolute_witness :
    transform_symlink dsub "/mnt/sub/a/b/link".toList (mkbuf "../c/file".toList 32) 32 =
      mkbuf "../c/file".toList 32 ∧
    transform_symlink (⟨[], 0, 1, nofs⟩ : subdir Unit) "a/b/link".toList
      (mkbuf "/a/c/file".toList 32) 32 = mkbuf "/a/c/file".toList 32 :=
  ⟨(transform_symlink_not_absolute calloc_ok dsub () "/mnt/sub/a/b/link".toList []
      [] (mkbuf "../c/file".toList 32) 32).1 (Or.inl (by decide)),
    (transform_symlink_not_absolute calloc_ok (⟨[], 0, 1, nofs⟩ : subdir Unit) ()
      "a/b/link".toList [] [] (mkbuf "/a/c/file".toList 32) 32).1 (Or.inr (by decide))⟩

/-! ## C13: the one-path operations -/

/-- C13: for every one-path operation registered in `subdir_oper`, if translating the
path fails the call returns `-ENOMEM` and the inner state is untouched (the inner
provider is not invoked); otherwise the result is that of one invocation of the
matching inner call on the translated path with the other arguments as given,
whatever status it returns. -/
theorem subdir_oper_forwards {σ : Type} (op : path_op) (malloc : Nat → Option (List Char))
    (d : subdir σ) (st : σ) (path : List Char) (args : d.next.Args op) :
    (subdir_addpath malloc d path = none →
      subdir_oper op malloc d st path args = (-ENOMEM, st)) ∧
    (∀ newpath, subdir_addpath malloc d path = some newpath →
      subdir_oper op malloc d st path args = d.next.call op st newpath args) := by
  constructor
  · intro h
    cases op <;> simp only [subdir_oper, subdir_getattr, subdir_fgetattr, subdir_access, subdir_opendir, subdir_readdir, subdir_releasedir, subdir_mknod, subdir_mkdir, subdir_unlink, subdir_rmdir, subdir_setattr_x, subdir_fsetattr_x, subdir_chflags, subdir_getxtimes, subdir_setbkuptime, subdir_setchgtime, subdir_setcrtime, subdir_chmod, subdir_chown, subdir_truncate, subdir_ftruncate, subdir_utimens, subdir_create, subdir_open, subdir_read, subdir_write, subdir_statfs, subdir_flush, subdir_release, subdir_fsync, subdir_fsyncdir, subdir_setxattr, subdir_getxattr, subdir_listxattr, subdir_removexattr, subdir_lock, subdir_bmap, h]
  · intro newpath h
    cases op <;> simp only [subdir_oper, subdir_getattr, subdir_fgetattr, subdir_access, subdir_opendir, subdir_readdir, subdir_releasedir, subdir_mknod, subdir_mkdir, subdir_unlink, subdir_rmdir, subdir_setattr_x, subdir_fsetattr_x, subdir_chflags, subdir_getxtimes, subdir_setbkuptime, subdir_setchgtime, subdir_setcrtime, subdir_chmod, subdir_chown, subdir_truncate, subdir_ftruncate, subdir_utimens, subdir_create, subdir_open, subdir_read, subdir_write, subdir_statfs, subdir_flush, subdir_release, subdir_fsync, subdir_fsyncdir, subdir_setxattr, subdir_getxattr, subdir_listxattr, subdir_removexattr, subdir_lock, subdir_bmap, h]

/-- Witness for C13: over a provider that records its calls and returns its argument
as status, `subdir_unlink` with a failed translation gives `-ENOMEM` and no call, and
`subdir_getattr` and `subdir_chmod` make one call on `/mnt/sub/a` and return the
provider's status, here `-2` and `0`. -/
theorem subdir_oper_forwards_witness :
    subdir_unlink malloc_fail (dlog 0 true) [] "/a".toList (-2 : Int) = (-12, []) ∧
    subdir_getattr calloc_ok (dlog 0 true) [] "/a".toList (-2 : Int) =
      (-2, ["/mnt/sub/a".toList]) ∧
    subdir_chmod calloc_ok (dlog 0 true) [] "/a".toList (0 : Int) =
      (0, ["/mnt/sub/a".toList]) :=
  ⟨(subdir_oper_forwards path_op.fs_unlink malloc_fail (dlog 0 true) [] "/a".toList
      (-2 : Int)).1 (by decide),
    ((subdir_oper_forwards path_op.fs_getattr calloc_ok (dlog 0 true) [] "/a".toList
      (-2 : Int)).2 (mkbuf "/mnt/sub/a".toList 13) (by decide)).trans (by decide),
    ((subdir_oper_forwards path_op.fs_chmod calloc_ok (dlog 0 true) [] "/a".toList
      (0 : Int)).2 (mkbuf "/mnt/sub/a".toList 13) (by decide)).trans (by decide)⟩

/-! ## C14: the base of an accepted configuration -/

/-- C14, as stated, fails: when the parse leaves the empty string in `base`, as the
single option `subdir=` does, `subdir_new` accepts the mount and the base of the
configuration is empty, with `baselen` 0; it does not end with `/`. -/
theorem subdir_new_base_counterexample :
    (subdir_new true (fun _ => some ⟨some [NUL], 0⟩) [nofs] true true).map
      (fun d => (cstr d.base, d.baselen)) = some ([], 0) ∧
    (subdir_new true (fuse_opt_parse ["subdir=".toList]) [nofs] true true).map
      (fun d => (cstr d.base, d.baselen)) = some ([], 0) := by
  decide

/-- C14, amended: in every configuration `subdir_new` accepts, `baselen` is the length
of the base, and the base is either empty, as given, or ends with `/`; a base given
non-empty ends with `/` in the configuration, one that already ends with `/` is kept
as given, and any other is the given one followed by `/`. -/
theorem subdir_new_base {σ : Type} (calloc_succeeds : Bool)
    (parse : subdir_options → Option subdir_options) (next : List (fuse_fs σ))
    (realloc_succeeds fuse_fs_new_succeeds : Bool) (d : subdir σ)
    (h : subdir_new calloc_succeeds parse next realloc_succeeds fuse_fs_new_succeeds = some d) :
    d.baselen = strlen d.base ∧
    (cstr d.base = [] ∨ (cstr d.base).getLast? = some '/') ∧
    ∃ o base, parse ⟨none, 0⟩ = some o ∧ o.base = some base ∧
      (cstr base = [] → d.base = base) ∧
      ((cstr base).getLast? = some '/' → d.base = base) ∧
      (cstr base ≠ [] → (cstr d.base).getLast? = some '/') ∧
      (cstr base ≠ [] → (cstr base).getLast? ≠ some '/' →
        cstr d.base = cstr base ++ ['/']) := by
  obtain ⟨o, base, hp, hb, _, _, hlen, hnorm, hkeep⟩ :=
    subdir_new_some calloc_succeeds parse next realloc_succeeds fuse_fs_new_succeeds d h
  have hcat : cstr (strcat base ['/']) = cstr base ++ ['/'] := by
    rw [cstr_strcat]
    rfl
  have hempty : cstr base = [] → d.base = base := by
    intro he
    apply hkeep
    rintro ⟨h1, _⟩
    exact h1 ((deref_eq_nul_iff base).2 he)
  have hslash : (cstr base).getLast? = some '/' → d.base = base := by
    intro hl
    apply hkeep
    rintro ⟨h1, h2⟩
    have hne : cstr base ≠ [] := fun he => h1 ((deref_eq_nul_iff base).2 he)
    rw [deref_drop_strlen_pred base hne] at hl
    exact h2 (Option.some.inj hl)
  have hother : cstr base ≠ [] → (cstr base).getLast? ≠ some '/' →
      d.base = strcat base ['/'] := by
    intro hne hl
    apply hnorm
    refine ⟨fun h0 => hne ((deref_eq_nul_iff base).1 h0), ?_⟩
    intro h2
    apply hl
    rw [deref_drop_strlen_pred base hne, h2]
  have hends : cstr base ≠ [] → (cstr d.base).getLast? = some '/' := by
    intro hne
    by_cases hl : (cstr base).getLast? = some '/'
    · rw [hslash hl]
      exact hl
    · rw [hother hne hl, hcat]
      simp
  refine ⟨hlen, ?_, o, base, hp, hb, hempty, hslash, hends, ?_⟩
  · by_cases he : cstr base = []
    · left
      rw [hempty he]
      exact he
    · exact Or.inr (hends he)
  · intro hne hl
    rw [hother hne hl, hcat]

/-- Witness for the amended C14: the option `subdir=/mnt/sub` gives the base
`/mnt/sub/` with `baselen` 9. -/
theorem subdir_new_base_witness :
    (subdir_new true (fuse_opt_parse ["subdir=/mnt/sub".toList]) [nofs] true true).map
        (fun d => (cstr d.base, d.baselen)) = some ("/mnt/sub/".toList, 9) ∧
    (⟨"/mnt/sub".toList ++ ['/', NUL], 9, 0, nofs⟩ : subdir Unit).baselen =
      strlen (⟨"/mnt/sub".toList ++ ['/', NUL], 9, 0, nofs⟩ : subdir Unit).base :=
  ⟨by decide,
    (subdir_new_base true (fuse_opt_parse ["subdir=/mnt/sub".toList]) [nofs] true true
      ⟨"/mnt/sub".toList ++ ['/', NUL], 9, 0, nofs⟩ (by rfl)).1⟩

/-! ## C15: refused mounts and the default of `rellinks` -/

/-- C15: `subdir_new` returns no filesystem whenever the list of inner filesystems
does not have exactly one entry, whatever the parser does, and, with the options
parsed as the table `subdir_opts` says, whenever no `subdir=` option is given,
whatever the other options are; in a configuration it accepts `rellinks` is zero
unless the option `rellinks` was given. -/
theorem subdir_new_refuses {σ : Type} (calloc_succeeds : Bool)
    (parse : subdir_options → Option subdir_options) (args : List (List Char))
    (next : List (fuse_fs σ)) (realloc_succeeds fuse_fs_new_succeeds : Bool) :
    (next.length ≠ 1 →
      subdir_new calloc_succeeds parse next realloc_succeeds fuse_fs_new_succeeds = none) ∧
    ((∀ arg ∈ args, ¬ ("subdir=".toList <+: arg)) →
      subdir_new calloc_succeeds (fuse_opt_parse args) next realloc_succeeds
        fuse_fs_new_succeeds = none) ∧
    (∀ d, subdir_new calloc_succeeds (fuse_opt_parse args) next realloc_succeeds
        fuse_fs_new_succeeds = some d → d.rellinks ≠ 0 → "rellinks".toList ∈ args) := by
  refine ⟨?_, ?_, ?_⟩
  · intro hn
    cases hs : subdir_new calloc_succeeds parse next realloc_succeeds fuse_fs_new_succeeds with
    | none => rfl
    | some d =>
      obtain ⟨_, _, _, _, hnext, _⟩ := subdir_new_some _ _ _ _ _ d hs
      rw [hnext] at hn
      exact absurd rfl hn
  · intro hno
    cases hs : subdir_new calloc_succeeds (fuse_opt_parse args) next realloc_succeeds
        fuse_fs_new_succeeds with
    | none => rfl
    | some d =>
      obtain ⟨o, base, hp, hb, _⟩ := subdir_new_some _ _ _ _ _ d hs
      have := fuse_opt_parse_base args ⟨none, 0⟩ o hno hp
      rw [hb] at this
      cases this
  · intro d hs hr
    obtain ⟨o, base, hp, _, _, hrl, _⟩ := subdir_new_some _ _ _ _ _ d hs
    rcases fuse_opt_parse_rellinks args ⟨none, 0⟩ o hp (hrl ▸ hr) with h0 | h0
    · exact absurd rfl h0
    · exact h0

/-- Witness for C15: two inner filesystems, or the options `rellinks, foo` without
`subdir=`, are refused; `subdir=/a` alone is accepted with `rellinks` zero. -/
theorem subdir_new_refuses_witness :
    (subdir_new true (fuse_opt_parse ["subdir=/a".toList]) [nofs, nofs] true true).isNone
      = true ∧
    (subdir_new true (fuse_opt_parse ["rellinks".toList, "foo".toList]) [nofs] true true).isNone
      = true ∧
    (subdir_new true (fuse_opt_parse ["subdir=/a".toList]) [nofs] true true).map
      (fun d => d.rellinks) = some 0 :=
  ⟨by rw [(subdir_new_refuses true (fuse_opt_parse ["subdir=/a".toList]) []
      [nofs, nofs] true true).1 (by decide)]; rfl,
    by rw [(subdir_new_refuses true (fuse_opt_parse []) ["rellinks".toList, "foo".toList]
      [nofs] true true).2.1 (by decide)]; rfl,
    by decide⟩

/-! ## C16: the common part removed by `strip_common` -/

/-- C16, as stated, fails in its last clause: for `L = P = /a` the function returns
`L' = P' = a`; both have a segment and their first segments are the same, so the
removed part is not the longest common one. -/
theorem strip_common_longest_counterexample :
    strip_common "/a".toList "/a".toList = (['a'], ['a']) ∧
    segments (strip_common "/a".toList "/a".toList).1 ≠ [] ∧
    segments (strip_common "/a".toList "/a".toList).2 ≠ [] ∧
    (segments (strip_common "/a".toList "/a".toList).1).head? =
      (segments (strip_common "/a".toList "/a".toList).2).head? := by
  decide

/-- C16, amended: for every pair of strings, `strip_common` returns suffixes `L'` and
`P'` that start before the terminators, not on a separator, and at a segment boundary
(at the start, after a separator, or on the terminator); the parts removed have the
same segments, which with those of `L'` and `P'` make up the segments of the two
strings; and either `L'` or `P'` has no segment, or their first segments differ, or
both strings end after one common last segment, which is then the whole of `L'` and of
`P'`. -/
theorem strip_common_common_segments (s t : List Char) :
    ∃ pre_s pre_t,
      s = pre_s ++ (strip_common s t).1 ∧ t = pre_t ++ (strip_common s t).2 ∧
      (∀ c ∈ pre_s, c ≠ NUL) ∧ (∀ c ∈ pre_t, c ≠ NUL) ∧
      deref (strip_common s t).1 ≠ '/' ∧ deref (strip_common s t).2 ≠ '/' ∧
      (pre_s = [] ∨ pre_s.getLast? = some '/' ∨ deref (strip_common s t).1 = NUL) ∧
      (pre_t = [] ∨ pre_t.getLast? = some '/' ∨ deref (strip_common s t).2 = NUL) ∧
      segments pre_s = segments pre_t ∧
      segments s = segments pre_s ++ segments (strip_common s t).1 ∧
      segments t = segments pre_t ++ segments (strip_common s t).2 ∧
      (segments (strip_common s t).1 = [] ∨ segments (strip_common s t).2 = [] ∨
        (segments (strip_common s t).1).head? ≠ (segments (strip_common s t).2).head? ∨
        (∃ w, w ≠ [] ∧ cstr (strip_common s t).1 = w ∧ cstr (strip_common s t).2 = w ∧
          segments (strip_common s t).1 = [w] ∧ segments (strip_common s t).2 = [w])) := by
  obtain ⟨pre_s, hs, hns, hbs⟩ := strip_common_fst_boundary s t
  obtain ⟨pre_t, ht, hnt, hbt⟩ := strip_common_snd_boundary s t
  obtain ⟨C, hC1, hC2⟩ := strip_common_segments s t
  have es : segments s = segments pre_s ++ segments (strip_common s t).1 := by
    conv_lhs => rw [hs]
    exact segments_append_of_boundary pre_s _ hns hbs
  have et : segments t = segments pre_t ++ segments (strip_common s t).2 := by
    conv_lhs => rw [ht]
    exact segments_append_of_boundary pre_t _ hnt hbt
  have c1 : segments pre_s = C := List.append_cancel_right (es.symm.trans hC1)
  have c2 : segments pre_t = C := List.append_cancel_right (et.symm.trans hC2)
  exact ⟨pre_s, pre_t, hs, ht, hns, hnt, deref_strip_common_fst s t,
    deref_strip_common_snd s t, hbs, hbt, c1.trans c2.symm, es, et,
    strip_common_maximal s t⟩

/-! ## C17: the length of the rewritten target -/

/-- C17, as stated, fails: with base `/mnt/sub/`, link `/mnt/sub/a/b/c/d/e/f/link` and
target `/mnt/sub/x` the buffer is rewritten; `L'` is at offset 9 of the target, the
count is 6 and the suffix is moved to offset 18; the new target
`../../../../../../x` has 19 bytes, the original 10. -/
theorem transform_symlink_longer_counterexample :
    transform_symlink dsub "/mnt/sub/a/b/c/d/e/f/link".toList (mkbuf "/mnt/sub/x".toList 32) 32
      ≠ mkbuf "/mnt/sub/x".toList 32 ∧
    (mkbuf "/mnt/sub/x".toList 32).length -
      (strip_common (mkbuf "/mnt/sub/x".toList 32)
        "/mnt/sub/a/b/c/d/e/f/link".toList).1.length = 9 ∧
    (count_components (strip_common (mkbuf "/mnt/sub/x".toList 32)
      "/mnt/sub/a/b/c/d/e/f/link".toList).2 - 1) * 3 = 18 ∧
    strlen (transform_symlink dsub "/mnt/sub/a/b/c/d/e/f/link".toList
      (mkbuf "/mnt/sub/x".toList 32) 32) = 19 ∧
    strlen (mkbuf "/mnt/sub/x".toList 32) = 10 := by
  decide

/-- C17, amended: for every rewrite `transform_symlink` performs, the rewritten target
is no longer than the original one exactly when the destination offset `count * 3` of
the moved suffix is at most the offset of `L'` in the original buffer; in every case
the rewritten target and its terminator fit in `size` bytes. -/
theorem transform_symlink_length {σ : Type} (d : subdir σ) (path buf : List Char)
    (size : Nat) (h : transform_symlink d path buf size ≠ buf) :
    (strlen (transform_symlink d path buf size) ≤ strlen buf ↔
      (count_components (strip_common buf path).2 - 1) * 3 ≤
        buf.length - (strip_common buf path).1.length) ∧
    strlen (transform_symlink d path buf size) + 1 ≤ size := by
  have hg := (transform_symlink_ne_iff d path buf size).1 h
  have hs := cstr_transform_symlink d path buf size h
  obtain ⟨pre, hpre, hnn⟩ := strip_common_fst_suffix buf path
  have hpne : pre ≠ [] := by
    rintro rfl
    rw [List.nil_append] at hpre
    have := deref_strip_common_fst buf path
    rw [← hpre] at this
    exact this hg.1
  have hp1 : 0 < pre.length := List.length_pos.2 hpne
  have hoff : buf.length - (strip_common buf path).1.length = pre.length := by
    have := congrArg List.length hpre
    rw [List.length_append] at this
    omega
  have hsb : strlen buf = pre.length + strlen (strip_common buf path).1 := by
    conv_lhs => rw [hpre]
    rw [strlen_eq_length_cstr, cstr_append pre _ hnn, List.length_append,
      ← strlen_eq_length_cstr]
  have hso : strlen (transform_symlink d path buf size) =
      (count_components (strip_common buf path).2 - 1) * 3 +
        (new_suffix (strip_common buf path).1
          (count_components (strip_common buf path).2 - 1)).length := by
    rw [strlen_eq_length_cstr, hs, List.length_append, length_dotdot_blocks]
  have hle := length_new_suffix_le (strip_common buf path).1
    (count_components (strip_common buf path).2 - 1)
  rw [hso, hsb, hoff]
  refine ⟨?_, by omega⟩
  unfold new_suffix
  by_cases hl : strlen (strip_common buf path).1 ≠ 0
  · rw [if_pos hl, ← strlen_eq_length_cstr]
    omega
  · rw [if_neg hl]
    by_cases hc : count_components (strip_common buf path).2 - 1 = 0
    · rw [if_pos hc, hc]
      simp only [List.length_singleton]
      omega
    · rw [if_neg hc]
      simp only [List.length_nil]
      omega

/-- Witness for the amended C17: for the link `/mnt/sub/a/b/link` with target
`/mnt/sub/a/c/file` the suffix moves from offset 11 to offset 3 and the new target is
not longer than the original. -/
theorem transform_symlink_length_witness :
    strlen (transform_symlink dsub "/mnt/sub/a/b/link".toList
      (mkbuf "/mnt/sub/a/c/file".toList 32) 32) ≤ strlen (mkbuf "/mnt/sub/a/c/file".toList 32) :=
  (transform_symlink_length dsub "/mnt/sub/a/b/link".toList
    (mkbuf "/mnt/sub/a/c/file".toList 32) 32 (by decide)).1.2 (by decide)

/-! ## C18: termination and reads -/

/-- C18: the loops of `strip_common` and `count_components` exit within the iterations
allowed, on every input.  An iteration of `strip_common` whose continuation test
holds leaves one of the two cursors on a separator, the skips of the next iteration
then leave strictly less to read, and so did the iteration itself.  No cursor moves
past a terminator: the cursors `s` and `t` of `strip_common` when it returns, which are
where `match_segment` stops from the returned `*sp` and `*tp`, and the cursor of
`count_components` after each of its steps, are reached over bytes that are not NUL. -/
theorem strip_common_count_components_terminate (s t p : List Char) :
    (∃ r, strip_common_loop (s.length + t.length + 1) s t = some r) ∧
    (∃ n, count_components_loop (p.length + 1) (skip_slashes p) 0 = some n) ∧
    (strip_common_continue (match_segment (skip_slashes s) (skip_slashes t)).1
        (match_segment (skip_slashes s) (skip_slashes t)).2 = true →
      (deref (match_segment (skip_slashes s) (skip_slashes t)).1 = '/' ∨
        deref (match_segment (skip_slashes s) (skip_slashes t)).2 = '/') ∧
      (skip_slashes (match_segment (skip_slashes s) (skip_slashes t)).1).length +
        (skip_slashes (match_segment (skip_slashes s) (skip_slashes t)).2).length <
        (match_segment (skip_slashes s) (skip_slashes t)).1.length +
          (match_segment (skip_slashes s) (skip_slashes t)).2.length ∧
      (match_segment (skip_slashes s) (skip_slashes t)).1.length +
        (match_segment (skip_slashes s) (skip_slashes t)).2.length < s.length + t.length) ∧
    (∃ w, s = w ++ (match_segment (strip_common s t).1 (strip_common s t).2).1 ∧
      ∀ c ∈ w, c ≠ NUL) ∧
    (∃ w, t = w ++ (match_segment (strip_common s t).1 (strip_common s t).2).2 ∧
      ∀ c ∈ w, c ≠ NUL) ∧
    (∃ w, p = w ++ skip_slashes p ∧ ∀ c ∈ w, c ≠ NUL) ∧
    (∃ w, p = w ++ skip_slashes (skip_component p) ∧ ∀ c ∈ w, c ≠ NUL) := by
  refine ⟨strip_common_loop_terminates _ s t (by omega), ?_, ?_, ?_, ?_, ?_, ?_⟩
  · exact ⟨_, count_components_loop_eq _ _ 0
      (Nat.lt_succ_of_le (skip_slashes_length_le p)) (deref_skip_slashes p)⟩
  · intro hc
    obtain ⟨_, _, h3⟩ := continue_after_match _ _ hc
    have hdec := strip_common_step_decreases s t hc
    refine ⟨h3, ?_, by omega⟩
    have l1 := skip_slashes_length_le (match_segment (skip_slashes s) (skip_slashes t)).1
    have l2 := skip_slashes_length_le (match_segment (skip_slashes s) (skip_slashes t)).2
    have key : ∀ q : List Char, deref q = '/' → (skip_slashes q).length < q.length := by
      intro q hq
      cases q with
      | nil => exact absurd hq nul_ne_slash
      | cons c q =>
        rw [deref_cons] at hq
        have := skip_slashes_length_le q
        rw [skip_slashes, if_pos hq, List.length_cons]
        omega
    rcases h3 with h3 | h3
    · have := key _ h3
      omega
    · have := key _ h3
      omega
  · obtain ⟨pre, hpre, hnn⟩ := strip_common_fst_suffix s t
    obtain ⟨w, h1, _, hclean, _⟩ := match_segment_split (strip_common s t).1 (strip_common s t).2
    refine ⟨pre ++ w, ?_, ?_⟩
    · rw [List.append_assoc, ← h1, ← hpre]
    · intro c hc
      rcases List.mem_append.1 hc with hc | hc
      · exact hnn c hc
      · exact (hclean c hc).1
  · obtain ⟨pre, hpre, hnn⟩ := strip_common_snd_suffix s t
    obtain ⟨w, _, h2, hclean, _⟩ := match_segment_split (strip_common s t).1 (strip_common s t).2
    refine ⟨pre ++ w, ?_, ?_⟩
    · rw [List.append_assoc, ← h2, ← hpre]
    · intro c hc
      rcases List.mem_append.1 hc with hc | hc
      · exact hnn c hc
      · exact (hclean c hc).1
  · obtain ⟨k, hk⟩ := skip_slashes_split p
    exact ⟨_, hk, not_nul_of_mem_replicate_slash k⟩
  · obtain ⟨w, hw, hclean, _⟩ := skip_component_split p
    obtain ⟨k, hk⟩ := skip_slashes_split (skip_component p)
    refine ⟨w ++ List.replicate k '/', ?_, ?_⟩
    · rw [List.append_assoc, ← hk, ← hw]
    · intro c hc
      rcases List.mem_append.1 hc with hc | hc
      · exact (hclean c hc).1
      · exact not_nul_of_mem_replicate_slash k c hc

/-- Witness for C18: on `/mnt/sub/a/c/file` and `/mnt/sub/a/b/link` the first iteration
continues with both cursors on the separator after `mnt`. -/
theorem strip_common_count_components_terminate_witness :
    deref (match_segment (skip_slashes "/mnt/sub/a/c/file".toList)
      (skip_slashes "/mnt/sub/a/b/link".toList)).1 = '/' ∨
    deref (match_segment (skip_slashes "/mnt/sub/a/c/file".toList)
      (skip_slashes "/mnt/sub/a/b/link".toList)).2 = '/' :=
  ((strip_common_count_components_terminate "/mnt/sub/a/c/file".toList
    "/mnt/sub/a/b/link".toList []).2.2.1 (by decide)).1

/-! ## C19: a rewritten target is relative -/

/-- C19: whenever `transform_symlink` rewrites the buffer the new contents do not
begin with `/`, and applying `transform_symlink` a second time with the same
configuration, link path and capacity leaves the buffer as the first application
left it. -/
theorem transform_symlink_idempotent {σ : Type} (d : subdir σ) (path buf : List Char)
    (size : Nat) :
    (transform_symlink d path buf size ≠ buf →
      deref (transform_symlink d path buf size) ≠ '/') ∧
    transform_symlink d path (transform_symlink d path buf size) size =
      transform_symlink d path buf size := by
  have h1 : transform_symlink d path buf size ≠ buf →
      deref (transform_symlink d path buf size) ≠ '/' := by
    intro h
    have hg := (transform_symlink_ne_iff d path buf size).1 h
    rw [transform_symlink_eq, if_pos hg]
    exact deref_new_target _ _ _ (deref_strip_common_fst buf path)
  refine ⟨h1, ?_⟩
  by_cases h : transform_symlink d path buf size = buf
  · rw [h, h]
  · have h2 := h1 h
    conv_lhs => rw [transform_symlink, if_pos (Or.inl h2)]

/-- Witness for C19: `../c/file`, the result for the link `/mnt/sub/a/b/link` with
target `/mnt/sub/a/c/file`, begins with `.`. -/
theorem transform_symlink_idempotent_witness :
    deref (transform_symlink dsub "/mnt/sub/a/b/link".toList
      (mkbuf "/mnt/sub/a/c/file".toList 32) 32) ≠ '/' :=
  (transform_symlink_idempotent dsub "/mnt/sub/a/b/link".toList
    (mkbuf "/mnt/sub/a/c/file".toList 32) 32).1 (by decide)

/-! ## C20: creating a link -/

/-- C20: `subdir_symlink` translates only the path of the link: when the translation
succeeds the result is that of one inner `symlink` that receives the target `from`
exactly as given, absolute or not, and the translated link path; when it fails the
call returns `-ENOMEM` and the inner state is untouched. -/
theorem subdir_symlink_target_untouched {σ : Type} (malloc : Nat → Option (List Char))
    (d : subdir σ) (st : σ) (src path : List Char) :
    (subdir_addpath malloc d path = none →
      subdir_symlink malloc d st src path = (-ENOMEM, st)) ∧
    (∀ newpath, subdir_addpath malloc d path = some newpath →
      subdir_symlink malloc d st src path = d.next.symlink st src newpath) := by
  constructor
  · intro h
    simp only [subdir_symlink, h]
  · intro newpath h
    simp only [subdir_symlink, h]

/-- Witness for C20: the absolute target `/etc/passwd` written for the link `/a`
reaches the recording provider unchanged, with the link path `/mnt/sub/a`. -/
theorem subdir_symlink_target_untouched_witness :
    subdir_symlink calloc_ok (dlog 0 true) [] "/etc/passwd".toList "/a".toList =
      (0, ["/etc/passwd".toList, "/mnt/sub/a".toList]) :=
  ((subdir_symlink_target_untouched calloc_ok (dlog 0 true) [] "/etc/passwd".toList
    "/a".toList).2 (mkbuf "/mnt/sub/a".toList 13) (by decide)).trans (by decide)

end Subdir
